import Mathlib

/-!
Shallow embedding of the baseboard-configurator packing engine
(`src/lib/utils.ts`) and verification of its specification claims.

Numbers are modelled as rationals (`ℚ`): the source arithmetic is the usual
field arithmetic on JavaScript numbers, and all concrete inputs used in the
theorems below are exactly representable, so the rational semantics agrees
with the double-precision run on them.  Mutation of the `boards` array is
modelled by explicit state passing; the `toast.error` side channel of
`optimizeBaseboards` is modelled as a second output component listing the
emitted warnings.  JavaScript truthiness tests on `number | null` values
(`if (boardLength)`) are modelled by an explicit comparison with `0` after
the `Option` match.
-/

namespace Baseboard

/-- `Measurement` record from `utils.ts`. -/
structure Measurement where
  id : String
  size : ℚ
  room : Option String := none
  wall : Option String := none
  splitEvenly : Bool := false
deriving DecidableEq

/-- `BaseboardConfig` record from `utils.ts`; `kerf = none` models an omitted
`kerf` field (the source then defaults it to `0.125`). -/
structure BaseboardConfig where
  measurements : List Measurement
  availableLengths : List ℚ
  kerf : Option ℚ := none

/-- `Cut` record from `utils.ts`. -/
structure Cut where
  id : String
  size : ℚ
  room : Option String := none
  wall : Option String := none
deriving DecidableEq

/-- `Board` record from `utils.ts`. -/
structure Board where
  boardLength : ℚ
  cuts : List Cut
  displayName : Option String := none
deriving DecidableEq

/-- Summary part of `BaseboardResult`.  The JavaScript
`Record<number, number>` is modelled as an association list built in first
occurrence order. -/
structure Summary where
  totalBoards : ℕ
  boardCounts : List (ℚ × ℕ)
  totalWaste : ℚ
deriving DecidableEq

/-- `BaseboardResult` record from `utils.ts`. -/
structure BaseboardResult where
  boards : List Board
  summary : Summary
deriving DecidableEq

/-- JavaScript `Math.round`: round half toward positive infinity. -/
def jsRound (q : ℚ) : ℤ := ⌊q + 1 / 2⌋

/-- `generateBoardName`: body of the do-while loop.  One iteration prepends
the character for `num % 26` and continues with `num / 26` while that is
positive.  The fuel argument only bounds the iteration count (`index + 1`
always suffices, since the quotient shrinks strictly). -/
def generateBoardNameGo : ℕ → ℕ → List Char → List Char
  | 0, _, result => result
  | fuel + 1, num, result =>
    let result' := Char.ofNat (65 + num % 26) :: result
    if 0 < num / 26 then generateBoardNameGo fuel (num / 26) result' else result'

/-- `generateBoardName` from `utils.ts`: letter sequence produced by the
source do-while loop (`A` has char code 65). -/
def generateBoardName (index : ℕ) : String :=
  String.mk (generateBoardNameGo (index + 1) index [])

/-- `calculateBalancedSplits` from `utils.ts`. -/
def calculateBalancedSplits (totalSize maxBoardLength : ℚ) : List ℚ :=
  let precision : ℚ := 1 / 16
  let numPieces : ℤ := ⌈totalSize / maxBoardLength⌉
  let baseSize : ℚ := totalSize / (numPieces : ℚ)
  let roundedBaseSize : ℚ := (jsRound (baseSize / precision) : ℚ) * precision
  let pieces : List ℚ := List.replicate numPieces.toNat roundedBaseSize
  let currentTotal : ℚ := roundedBaseSize * (numPieces : ℚ)
  let diff : ℚ := totalSize - currentTotal
  pieces.set (numPieces.toNat - 1) (roundedBaseSize + diff)

/-- `calculateUsed` helper from `optimizeBaseboards`: cuts total plus
`(count − 1) × kerf`, `0` for an empty cut list. -/
def calculateUsed (kerf : ℚ) (cuts : List Cut) : ℚ :=
  if cuts.length = 0 then 0
  else (cuts.map Cut.size).sum + ((cuts.length - 1 : ℕ) : ℚ) * kerf

/-- `canFit` helper from `optimizeBaseboards`. -/
def canFit (kerf : ℚ) (board : Board) (cutSize : ℚ) : Bool :=
  let currentUsed := calculateUsed kerf board.cuts
  let kerfNeeded := if 0 < board.cuts.length then kerf else 0
  decide (currentUsed + kerfNeeded + cutSize ≤ board.boardLength)

/-- `calculateTotalWaste` helper from `optimizeBaseboards`. -/
def calculateTotalWaste (kerf : ℚ) (boards : List Board) : ℚ :=
  boards.foldl (fun total board =>
    total + (board.boardLength - calculateUsed kerf board.cuts)) 0

/-- `calculateSummaryStats` from `utils.ts`, specialised to the
`calculateUsed` callback that `optimizeBaseboards` passes it. -/
def calculateSummaryStats (kerf : ℚ) (boards : List Board) : Summary :=
  { totalBoards := boards.length
    boardCounts := boards.foldl (fun counts board =>
      match counts.lookup board.boardLength with
      | some n => counts.map (fun p =>
          if p.1 = board.boardLength then (p.1, n + 1) else p)
      | none => counts ++ [(board.boardLength, 1)]) []
    totalWaste := boards.foldl (fun totalWaste board =>
      totalWaste + (board.boardLength - calculateUsed kerf board.cuts)) 0 }

/-- JavaScript stable ascending sort `[...xs].sort((a, b) => a - b)`
(insertion sort computes the same stable result). -/
def sortAsc (xs : List ℚ) : List ℚ :=
  List.insertionSort (· ≤ ·) xs

/-- Stable descending sort by measurement size,
`[...measurements].sort((a, b) => b.size - a.size)`. -/
def sortBySizeDesc (ms : List Measurement) : List Measurement :=
  List.insertionSort (fun a b => b.size ≤ a.size) ms

/-- `findBestNewBoard` helper from `tryPackingStrategy`: among the allowed
lengths that hold `size`, the one with minimal waste (strict improvement
required, so the first minimum in iteration order wins). -/
def findBestNewBoard (sortedAllowed : List ℚ) (size : ℚ) : Option ℚ :=
  (sortedAllowed.foldl (fun acc length =>
    if size ≤ length then
      match acc with
      | none => some (length, length - size)
      | some (bestLength, minWaste) =>
          if length - size < minWaste then some (length, length - size)
          else some (bestLength, minWaste)
    else acc) none).map Prod.fst

/-- One iteration of the best-fit search over existing boards: the state is
the incumbent `(index, remaining space)` (`none` models
`bestBoardIndex = -1` with `minRemainingSpace = Infinity`) together with the
current loop index. -/
def bestFitStep (kerf size : ℚ) (acc : Option (ℕ × ℚ) × ℕ) (board : Board) :
    Option (ℕ × ℚ) × ℕ :=
  let i := acc.2
  if canFit kerf board size then
    let currentUsed := calculateUsed kerf board.cuts
    let kerfNeeded := if 0 < board.cuts.length then kerf else 0
    let remainingAfter := board.boardLength - (currentUsed + kerfNeeded + size)
    match acc.1 with
    | none => (some (i, remainingAfter), i + 1)
    | some (bestIdx, minRem) =>
        if remainingAfter < minRem then (some (i, remainingAfter), i + 1)
        else (some (bestIdx, minRem), i + 1)
  else (acc.1, i + 1)

/-- The best-fit search over existing boards shared by the main loop of
`tryPackingStrategy` and the balanced-split re-insertion: index of the board
that fits the cut and leaves the least remaining space (first such index on
ties, `none` when no board fits). -/
def bestFitIndex (kerf : ℚ) (boards : List Board) (size : ℚ) : Option ℕ :=
  ((boards.foldl (bestFitStep kerf size) (none, 0)).1).map Prod.fst

/-- Replace the element at position `i` by `f` applied to it (used to model
in-place mutation of one board of the array). -/
def modifyAt (f : Board → Board) : ℕ → List Board → List Board
  | _, [] => []
  | 0, b :: bs => f b :: bs
  | n + 1, b :: bs => b :: modifyAt f n bs

/-- Append a cut to a board (models `bestBoard.cuts.push(...)`). -/
def pushCut (c : Cut) (b : Board) : Board :=
  { b with cuts := b.cuts ++ [c] }

/-- Map with the zero-based position, `boards.map((board, index) => ...)`. -/
def mapWithIndex (f : ℕ → Board → Board) : ℕ → List Board → List Board
  | _, [] => []
  | i, b :: bs => f i b :: mapWithIndex f (i + 1) bs

/-- Fuel that strictly dominates the number of iterations of the source
`while (remaining > 0)` loop of `handleOversized` whenever
`0 < maxAllowed`. -/
def oversizeFuel (size maxAllowed : ℚ) : ℕ :=
  (⌈size / maxAllowed⌉).toNat + 1

/-- Body of `handleOversized` from `tryPackingStrategy`: the
`while (remaining > 0)` loop, with explicit fuel (the loop terminates for
every positive `maxAllowed`, which `optimizeBaseboards` guarantees for
positive stock lengths; on fuel exhaustion the boards built so far are
returned). -/
def handleOversizedGo (sortedAllowed : List ℚ) (maxAllowed : ℚ)
    (m : Measurement) : ℕ → ℚ → List Board → List Board
  | 0, _, boards => boards
  | fuel + 1, remaining, boards =>
    if 0 < remaining then
      if remaining ≤ maxAllowed then
        match findBestNewBoard sortedAllowed remaining with
        | some boardLength =>
            if boardLength = 0 then boards
            else boards ++
              [{ boardLength := boardLength
                 cuts := [{ id := m.id, size := remaining,
                            room := m.room, wall := m.wall }] }]
        | none => boards
      else
        handleOversizedGo sortedAllowed maxAllowed m fuel
          (remaining - maxAllowed)
          (boards ++
            [{ boardLength := maxAllowed
               cuts := [{ id := m.id, size := maxAllowed,
                          room := m.room, wall := m.wall }] }])
    else boards

/-- `handleOversized` from `tryPackingStrategy`, starting the loop at
`remaining = measurement.size` with sufficient fuel. -/
def handleOversized (sortedAllowed : List ℚ) (maxAllowed : ℚ)
    (boards : List Board) (m : Measurement) : List Board :=
  handleOversizedGo sortedAllowed maxAllowed m
    (oversizeFuel m.size maxAllowed + 1) m.size boards

/-- One iteration of the main Best-Fit-Decreasing loop of
`tryPackingStrategy` for a measurement that is not oversized: append its cut
to the best-fitting existing board, or open a new board with the
minimum-waste allowed length. -/
def placeMeasurement (sortedAllowed : List ℚ) (kerf : ℚ)
    (boards : List Board) (m : Measurement) : List Board :=
  match bestFitIndex kerf boards m.size with
  | some i =>
      modifyAt (pushCut { id := m.id, size := m.size,
                          room := m.room, wall := m.wall }) i boards
  | none =>
      match findBestNewBoard sortedAllowed m.size with
      | some boardLength =>
          if boardLength = 0 then boards
          else boards ++
            [{ boardLength := boardLength
               cuts := [{ id := m.id, size := m.size,
                          room := m.room, wall := m.wall }] }]
      | none => boards

/-- `tryPackingStrategy` from `optimizeBaseboards`. -/
def tryPackingStrategy (measurements : List Measurement) (kerf : ℚ)
    (allowedLengths : List ℚ) : List Board :=
  let sortedAllowed := sortAsc allowedLengths
  match sortedAllowed.getLast? with
  | none => []
  | some maxAllowed =>
      (sortBySizeDesc measurements).foldl (fun boards m =>
        if maxAllowed < m.size then
          handleOversized sortedAllowed maxAllowed boards m
        else
          placeMeasurement sortedAllowed kerf boards m) []

/-- Selector state: the incumbent best board list and its waste
(`none` models the initial `minWaste = Infinity`). -/
structure SelState where
  bestBoards : List Board
  minWaste : Option ℚ
deriving DecidableEq

/-- One comparison step of the strategy selector: keep the candidate exactly
when it has strictly lower waste, or equal waste and strictly fewer
boards. -/
def selStep (kerf : ℚ) (st : SelState) (boards : List Board) : SelState :=
  match st.minWaste with
  | none =>
      { bestBoards := boards, minWaste := some (calculateTotalWaste kerf boards) }
  | some minWaste =>
      if calculateTotalWaste kerf boards < minWaste ∨
          (calculateTotalWaste kerf boards = minWaste ∧
            boards.length < st.bestBoards.length)
      then { bestBoards := boards, minWaste := some (calculateTotalWaste kerf boards) }
      else st

/-- The pair candidates of strategy 3, in the order of the source double
loop (`i < j` over the entries of the sorted list, duplicates included). -/
def pairsOf : List ℚ → List (List ℚ)
  | [] => []
  | x :: xs => xs.map (fun y => [x, y]) ++ pairsOf xs

/-- The three strategy phases of `optimizeBaseboards`: singleton candidates
in ascending order, then the full sorted list, then pairs when at most four
entries. -/
def runStrategies (measurements : List Measurement) (kerf : ℚ)
    (sortedLengths : List ℚ) : SelState :=
  let st1 := sortedLengths.foldl (fun st length =>
    selStep kerf st (tryPackingStrategy measurements kerf [length]))
    { bestBoards := [], minWaste := none }
  let st2 := selStep kerf st1 (tryPackingStrategy measurements kerf sortedLengths)
  if sortedLengths.length ≤ 4 then
    (pairsOf sortedLengths).foldl (fun st pair =>
      selStep kerf st (tryPackingStrategy measurements kerf pair)) st2
  else st2

/-- The candidate list the three phases of the selector evaluate, in
evaluation order. -/
def strategyCandidates (sortedLengths : List ℚ) : List (List ℚ) :=
  sortedLengths.map (fun length => [length]) ++ [sortedLengths] ++
    (if sortedLengths.length ≤ 4 then pairsOf sortedLengths else [])

/-- Insertion of one balanced-split piece into the current board list
(best-fit into an existing board, else a new minimum-waste board), from the
`for (const splitSize of splits)` loop of `optimizeBaseboards`. -/
def insertSplit (sortedLengths : List ℚ) (kerf : ℚ) (m : Measurement)
    (boards : List Board) (splitSize : ℚ) : List Board :=
  let splitCut : Cut := { id := m.id, size := splitSize,
                          room := m.room, wall := m.wall }
  match bestFitIndex kerf boards splitSize with
  | some i => modifyAt (pushCut splitCut) i boards
  | none =>
      match findBestNewBoard sortedLengths splitSize with
      | some bestLength =>
          if bestLength = 0 then boards
          else boards ++ [{ boardLength := bestLength, cuts := [splitCut] }]
      | none => boards

/-- Balanced-split rework of one measurement: when it is flagged
`splitEvenly` and exceeds the maximum stock length, remove its cuts, drop
boards left empty, and re-insert the balanced pieces; otherwise leave the
boards unchanged. -/
def reworkMeasurement (sortedLengths : List ℚ) (kerf maxBoardLength : ℚ)
    (boards : List Board) (m : Measurement) : List Board :=
  if m.splitEvenly && decide (maxBoardLength < m.size) then
    let boards1 := boards.map (fun b =>
      { b with cuts := b.cuts.filter (fun c => c.id ≠ m.id) })
    let boards2 := boards1.filter (fun b => 0 < b.cuts.length)
    let splits := calculateBalancedSplits m.size maxBoardLength
    splits.foldl (insertSplit sortedLengths kerf m) boards2
  else boards

/-- The balanced-split post-processing loop of `optimizeBaseboards` over all
measurements in input order. -/
def postProcessSplits (measurements : List Measurement)
    (sortedLengths : List ℚ) (kerf : ℚ) (boards : List Board) : List Board :=
  match sortedLengths.getLast? with
  | none => boards
  | some maxBoardLength =>
      measurements.foldl (reworkMeasurement sortedLengths kerf maxBoardLength) boards

/-- The board-downgrade pass of `optimizeBaseboards` applied to one board:
the first ascending available length that is strictly smaller than the
current length and holds the used length replaces the board length (the
source `if (bestSmallerLength)` truthiness test skips a zero length). -/
def downgradeBoard (sortedLengths : List ℚ) (kerf : ℚ) (board : Board) : Board :=
  match sortedLengths.find? (fun length =>
      decide (length < board.boardLength) &&
      decide (calculateUsed kerf board.cuts ≤ length)) with
  | some bestSmallerLength =>
      if bestSmallerLength = 0 then board
      else { board with boardLength := bestSmallerLength }
  | none => board

/-- The body of `optimizeBaseboards` past the empty-stock guard: strategy
selection, balanced-split post-processing, the downgrade pass, summary
statistics, and display-name assignment. -/
def optimizeCore (measurements : List Measurement) (availableLengths : List ℚ)
    (kerf : ℚ) : BaseboardResult :=
  let sortedLengths := sortAsc availableLengths
  let bestBoards := (runStrategies measurements kerf sortedLengths).bestBoards
  let bestBoards2 := postProcessSplits measurements sortedLengths kerf bestBoards
  let bestBoards3 := bestBoards2.map (downgradeBoard sortedLengths kerf)
  { boards := mapWithIndex (fun index board =>
      { board with displayName := some ("Board " ++ generateBoardName index) }) 0 bestBoards3
    summary := calculateSummaryStats kerf bestBoards3 }

/-- `optimizeBaseboards` from `utils.ts`.  The first component is the
returned `BaseboardResult`; the second lists the `toast.error` messages
emitted during the call (the warning side channel). -/
def optimizeBaseboards (config : BaseboardConfig) : BaseboardResult × List String :=
  let kerf := config.kerf.getD (1 / 8)
  if config.availableLengths.length = 0 then
    ({ boards := []
       summary := { totalBoards := 0, boardCounts := [], totalWaste := 0 } },
     ["No available board lengths provided"])
  else
    (optimizeCore config.measurements config.availableLengths kerf, [])

/-- Selector score of a candidate packing: total waste first, board count
as tie-break. -/
def score (kerf : ℚ) (boards : List Board) : ℚ × ℕ :=
  (calculateTotalWaste kerf boards, boards.length)

/-- Strict lexicographic order on selector scores. -/
def lexLt (a b : ℚ × ℕ) : Prop :=
  a.1 < b.1 ∨ (a.1 = b.1 ∧ a.2 < b.2)

/-- Lexicographic order on selector scores. -/
def lexLe (a b : ℚ × ℕ) : Prop :=
  a.1 < b.1 ∨ (a.1 = b.1 ∧ a.2 ≤ b.2)

/-! ### Basic lemmas about the helpers -/

/-- A board list is not oversubscribed: every board's used length is at most
its chosen length. -/
def BoardsFit (kerf : ℚ) (boards : List Board) : Prop :=
  ∀ b ∈ boards, calculateUsed kerf b.cuts ≤ b.boardLength

/-- A cut occurs somewhere on a board list. -/
def InCuts (boards : List Board) (c : Cut) : Prop :=
  ∃ b ∈ boards, c ∈ b.cuts

theorem calculateUsed_nil (kerf : ℚ) : calculateUsed kerf [] = 0 := by
  simp [calculateUsed]

theorem calculateUsed_single (kerf : ℚ) (c : Cut) :
    calculateUsed kerf [c] = c.size := by
  simp [calculateUsed]

theorem calculateUsed_append (kerf : ℚ) (cuts : List Cut) (c : Cut)
    (h : cuts ≠ []) :
    calculateUsed kerf (cuts ++ [c]) =
      calculateUsed kerf cuts + kerf + c.size := by
  match cuts, h with
  | c₀ :: cs, _ =>
    simp only [calculateUsed, List.length_append, List.length_cons,
      List.map_append, List.map_cons, List.sum_append, List.map_nil,
      List.sum_cons, List.sum_nil]
    norm_num
    ring

theorem canFit_push (kerf : ℚ) (b : Board) (c : Cut)
    (hfit : canFit kerf b c.size = true) :
    calculateUsed kerf (b.cuts ++ [c]) ≤ b.boardLength := by
  simp only [canFit, decide_eq_true_eq] at hfit
  rcases eq_or_ne b.cuts [] with hc | hc
  · rw [hc]
    simpa [calculateUsed_single, hc, calculateUsed_nil] using hfit
  · rw [calculateUsed_append kerf b.cuts c hc]
    have hlen : 0 < b.cuts.length := List.length_pos.mpr hc
    simp only [if_pos hlen] at hfit
    linarith

theorem findBestNewBoard_some {ls : List ℚ} {size l : ℚ}
    (h : findBestNewBoard ls size = some l) : size ≤ l ∧ l ∈ ls := by
  suffices H : ∀ (xs : List ℚ) (acc : Option (ℚ × ℚ)),
      (∀ p, acc = some p → size ≤ p.1 ∧ p.1 ∈ ls) →
      (∀ x ∈ xs, x ∈ ls) →
      ∀ p, xs.foldl (fun acc length =>
        if size ≤ length then
          match acc with
          | none => some (length, length - size)
          | some (bestLength, minWaste) =>
              if length - size < minWaste then some (length, length - size)
              else some (bestLength, minWaste)
        else acc) acc = some p → size ≤ p.1 ∧ p.1 ∈ ls by
    unfold findBestNewBoard at h
    rw [Option.map_eq_some'] at h
    obtain ⟨p, hp, hl⟩ := h
    obtain ⟨h1, h2⟩ := H ls none (by simp) (fun x hx => hx) p hp
    exact hl ▸ ⟨h1, h2⟩
  intro xs
  induction xs with
  | nil => intro acc hacc _ p hp; exact hacc p hp
  | cons x xs ih =>
      intro acc hacc hxs p hp
      refine ih _ ?_ (fun y hy => hxs y (List.mem_cons_of_mem _ hy)) p hp
      intro q hq
      by_cases hsx : size ≤ x
      · simp only [List.foldl_cons, if_pos hsx] at hq ⊢
        match acc, hacc with
        | none, _ =>
            simp only at hq
            cases hq
            exact ⟨hsx, hxs x (List.mem_cons_self x xs)⟩
        | some (bl, mw), hacc =>
            simp only at hq
            by_cases hlt : x - size < mw
            · rw [if_pos hlt] at hq
              cases hq
              exact ⟨hsx, hxs x (List.mem_cons_self x xs)⟩
            · rw [if_neg hlt] at hq
              cases hq
              exact hacc (bl, mw) rfl
      · simp only [if_neg hsx] at hq
        exact hacc q hq

theorem bestFitIndex_some {kerf : ℚ} {boards : List Board} {size : ℚ} {i : ℕ}
    (h : bestFitIndex kerf boards size = some i) :
    ∃ b, boards.get? i = some b ∧ canFit kerf b size = true := by
  suffices H : ∀ (bs : List Board) (acc : Option (ℕ × ℚ)) (k : ℕ),
      (∀ j r, acc = some (j, r) →
        ∃ b, boards.get? j = some b ∧ canFit kerf b size = true) →
      (∀ d b, bs.get? d = some b → boards.get? (k + d) = some b) →
      ∀ j r, (bs.foldl (bestFitStep kerf size) (acc, k)).1 = some (j, r) →
        ∃ b, boards.get? j = some b ∧ canFit kerf b size = true by
    unfold bestFitIndex at h
    rw [Option.map_eq_some'] at h
    obtain ⟨⟨j, r⟩, hp, hj⟩ := h
    exact hj ▸ H boards none 0 (by simp) (fun d b hd => by simpa using hd) j r hp
  intro bs
  induction bs with
  | nil => intro acc k hacc _ j r hj; exact hacc j r hj
  | cons b bs ih =>
      intro acc k hacc hsub j r hj
      rw [List.foldl_cons] at hj
      have hb : boards.get? k = some b := by
        have := hsub 0 b (by simp)
        simpa using this
      have hsub' : ∀ d b', bs.get? d = some b' → boards.get? (k + 1 + d) = some b' := by
        intro d b' hd
        have := hsub (d + 1) b' (by simpa using hd)
        simpa [Nat.add_assoc, Nat.add_comm 1 d] using this
      by_cases hfit : canFit kerf b size = true
      · rcases hacc' : acc with _ | ⟨⟨bi, mr⟩⟩
        · refine ih _ (k + 1) ?_ hsub' j r (by
            simpa [bestFitStep, hfit, hacc'] using hj)
          intro j' r' hj'
          cases hj'
          exact ⟨b, hb, hfit⟩
        · by_cases hlt : b.boardLength -
              (calculateUsed kerf b.cuts +
                (if 0 < b.cuts.length then kerf else 0) + size) < mr
          · refine ih _ (k + 1) ?_ hsub' j r (by
              simpa [bestFitStep, hfit, hacc', hlt] using hj)
            intro j' r' hj'
            cases hj'
            exact ⟨b, hb, hfit⟩
          · refine ih _ (k + 1) ?_ hsub' j r (by
              simpa [bestFitStep, hfit, hacc', hlt] using hj)
            intro j' r' hj'
            cases hj'
            exact hacc bi mr hacc'
      · refine ih _ (k + 1) ?_ hsub' j r (by
          simpa [bestFitStep, hfit] using hj)
        intro j' r' hj'
        exact hacc j' r' hj'

theorem modifyAt_mem {f : Board → Board} {i : ℕ} {l : List Board} {b' : Board}
    (h : b' ∈ modifyAt f i l) :
    b' ∈ l ∨ ∃ b, l.get? i = some b ∧ b' = f b := by
  induction l generalizing i with
  | nil => simp [modifyAt] at h
  | cons b bs ih =>
      match i with
      | 0 =>
          rw [modifyAt] at h
          rcases List.mem_cons.mp h with h | h
          · exact Or.inr ⟨b, by simp, h⟩
          · exact Or.inl (List.mem_cons_of_mem _ h)
      | n + 1 =>
          rw [modifyAt] at h
          rcases List.mem_cons.mp h with h | h
          · exact Or.inl (h ▸ List.mem_cons_self _ _)
          · rcases ih h with h | ⟨b₀, hb₀, hfb⟩
            · exact Or.inl (List.mem_cons_of_mem _ h)
            · exact Or.inr ⟨b₀, by simpa using hb₀, hfb⟩

theorem pushCut_fit {kerf : ℚ} {b : Board} {c : Cut}
    (hfit : canFit kerf b c.size = true) :
    calculateUsed kerf (pushCut c b).cuts ≤ (pushCut c b).boardLength :=
  canFit_push kerf b c hfit

/-! ### Preservation lemmas for the placement operations -/

/-- The main-loop placement is the same code as the balanced-split
re-insertion, applied to the measurement's full size. -/
theorem placeMeasurement_eq_insertSplit (ls : List ℚ) (kerf : ℚ)
    (boards : List Board) (m : Measurement) :
    placeMeasurement ls kerf boards m = insertSplit ls kerf m boards m.size := rfl

theorem insertSplit_mem {ls : List ℚ} {kerf : ℚ} {m : Measurement}
    {boards : List Board} {s : ℚ} {b' : Board}
    (h : b' ∈ insertSplit ls kerf m boards s) :
    b' ∈ boards ∨
    (∃ b ∈ boards,
      b' = pushCut { id := m.id, size := s, room := m.room, wall := m.wall } b ∧
      canFit kerf b s = true) ∨
    (b'.cuts = [{ id := m.id, size := s, room := m.room, wall := m.wall }] ∧
      s ≤ b'.boardLength ∧ b'.boardLength ∈ ls) := by
  unfold insertSplit at h
  rcases hidx : bestFitIndex kerf boards s with _ | i
  · rw [hidx] at h
    rcases hfind : findBestNewBoard ls s with _ | l
    · rw [hfind] at h
      exact Or.inl h
    · simp only [hfind] at h
      by_cases hz : l = 0
      · simp only [if_pos hz] at h
        exact Or.inl h
      · simp only [if_neg hz] at h
        rcases List.mem_append.mp h with h | h
        · exact Or.inl h
        · obtain ⟨hle, hmem⟩ := findBestNewBoard_some hfind
          simp only [List.mem_singleton] at h
          subst h
          exact Or.inr (Or.inr ⟨rfl, hle, hmem⟩)
  · rw [hidx] at h
    obtain ⟨b, hb, hfit⟩ := bestFitIndex_some hidx
    rcases modifyAt_mem h with h | ⟨b₀, hb₀, hpush⟩
    · exact Or.inl h
    · rw [hb] at hb₀
      cases hb₀
      exact Or.inr (Or.inl ⟨b, List.get?_mem hb, hpush, hfit⟩)

theorem insertSplit_fit {ls : List ℚ} {kerf : ℚ} {m : Measurement}
    {boards : List Board} {s : ℚ}
    (hinv : BoardsFit kerf boards) :
    BoardsFit kerf (insertSplit ls kerf m boards s) := by
  intro b' hb'
  rcases insertSplit_mem hb' with h | ⟨b, hb, hpush, hfit⟩ | ⟨hcuts, hle, _⟩
  · exact hinv b' h
  · exact hpush ▸ pushCut_fit hfit
  · rw [hcuts, calculateUsed_single]
    exact hle

theorem insertSplit_cuts {ls : List ℚ} {kerf : ℚ} {m : Measurement}
    {boards : List Board} {s : ℚ} {c : Cut}
    (h : InCuts (insertSplit ls kerf m boards s) c) :
    InCuts boards c ∨ c.id = m.id := by
  obtain ⟨b', hb', hc⟩ := h
  rcases insertSplit_mem hb' with hm | ⟨b, hb, hpush, _⟩ | ⟨hcuts, _, _⟩
  · exact Or.inl ⟨b', hm, hc⟩
  · rw [hpush] at hc
    rcases List.mem_append.mp hc with hc | hc
    · exact Or.inl ⟨b, hb, hc⟩
    · simp only [List.mem_singleton] at hc
      subst hc
      exact Or.inr rfl
  · rw [hcuts] at hc
    simp only [List.mem_singleton] at hc
    subst hc
    exact Or.inr rfl

theorem insertSplit_nonempty {ls : List ℚ} {kerf : ℚ} {m : Measurement}
    {boards : List Board} {s : ℚ}
    (hne : ∀ b ∈ boards, b.cuts ≠ []) :
    ∀ b' ∈ insertSplit ls kerf m boards s, b'.cuts ≠ [] := by
  intro b' hb'
  rcases insertSplit_mem hb' with h | ⟨b, _, hpush, _⟩ | ⟨hcuts, _, _⟩
  · exact hne b' h
  · rw [hpush]
    simp [pushCut]
  · rw [hcuts]
    simp

theorem handleOversizedGo_mem {ls : List ℚ} {maxAllowed : ℚ} {m : Measurement}
    {fuel : ℕ} {rem : ℚ} {boards : List Board} {b' : Board}
    (hmax : maxAllowed ∈ ls)
    (h : b' ∈ handleOversizedGo ls maxAllowed m fuel rem boards) :
    b' ∈ boards ∨
    ∃ c : Cut, b'.cuts = [c] ∧ c.id = m.id ∧
      (0 < maxAllowed → 0 < rem → 0 < c.size) ∧
      c.size ≤ b'.boardLength ∧ b'.boardLength ∈ ls := by
  induction fuel generalizing rem boards with
  | zero => exact Or.inl h
  | succ fuel ih =>
      rw [handleOversizedGo] at h
      by_cases hrem : 0 < rem
      · rw [if_pos hrem] at h
        by_cases hle : rem ≤ maxAllowed
        · rw [if_pos hle] at h
          rcases hfind : findBestNewBoard ls rem with _ | l
          · simp only [hfind] at h
            exact Or.inl h
          · simp only [hfind] at h
            by_cases hz : l = 0
            · simp only [if_pos hz] at h
              exact Or.inl h
            · simp only [if_neg hz] at h
              rcases List.mem_append.mp h with h | h
              · exact Or.inl h
              · obtain ⟨hszle, hmem⟩ := findBestNewBoard_some hfind
                simp only [List.mem_singleton] at h
                subst h
                exact Or.inr ⟨_, rfl, rfl, fun _ _ => hrem, hszle, hmem⟩
        · rw [if_neg hle] at h
          rcases ih h with h | ⟨c, hc, hid, hpos, hle', hmem⟩
          · rcases List.mem_append.mp h with h | h
            · exact Or.inl h
            · simp only [List.mem_singleton] at h
              subst h
              exact Or.inr ⟨_, rfl, rfl, fun hm _ => hm, le_refl _, hmax⟩
          · refine Or.inr ⟨c, hc, hid, fun hm _ => ?_, hle', hmem⟩
            exact hpos hm (by linarith [not_le.mp hle])
      · rw [if_neg hrem] at h
        exact Or.inl h

theorem handleOversized_mem {ls : List ℚ} {maxAllowed : ℚ} {m : Measurement}
    {boards : List Board} {b' : Board}
    (hmax : maxAllowed ∈ ls)
    (h : b' ∈ handleOversized ls maxAllowed boards m) :
    b' ∈ boards ∨
    ∃ c : Cut, b'.cuts = [c] ∧ c.id = m.id ∧
      (0 < maxAllowed → 0 < m.size → 0 < c.size) ∧
      c.size ≤ b'.boardLength ∧ b'.boardLength ∈ ls :=
  handleOversizedGo_mem hmax h

/-! ### Sorting and fold helpers -/

theorem getLast?_mem {α : Type} {l : List α} {a : α} (h : l.getLast? = some a) :
    a ∈ l := by
  obtain ⟨h₁, h₂⟩ := List.mem_getLast?_eq_getLast (by rw [h]; rfl)
  exact h₂ ▸ List.getLast_mem h₁

theorem sortAsc_mem {xs : List ℚ} {a : ℚ} : a ∈ sortAsc xs ↔ a ∈ xs :=
  (List.perm_insertionSort (· ≤ ·) xs).mem_iff

theorem sortAsc_sorted (xs : List ℚ) : List.Sorted (· ≤ ·) (sortAsc xs) :=
  List.sorted_insertionSort (· ≤ ·) xs

theorem sortBySizeDesc_mem {ms : List Measurement} {m : Measurement} :
    m ∈ sortBySizeDesc ms ↔ m ∈ ms :=
  (List.perm_insertionSort _ ms).mem_iff

theorem sorted_le_getLast {l : List ℚ} {M : ℚ}
    (hs : List.Sorted (· ≤ ·) l) (hM : l.getLast? = some M) :
    ∀ x ∈ l, x ≤ M := by
  induction l with
  | nil => simp at hM
  | cons a l ih =>
      intro x hx
      match l, hM with
      | [], hM =>
          simp only [List.getLast?_singleton, Option.some_inj] at hM
          simp only [List.mem_singleton] at hx
          exact le_of_eq (hx.trans hM)
      | b :: l, hM =>
          have hM' : (b :: l).getLast? = some M := by
            rw [← hM]
            rfl
          rcases List.mem_cons.mp hx with hx | hx
          · subst hx
            have hxb : ∀ y ∈ b :: l, x ≤ y := fun y hy =>
              (List.sorted_cons.mp hs).1 y hy
            exact hxb M (getLast?_mem hM')
          · exact ih (List.sorted_cons.mp hs).2 hM' x hx

/-- A fold preserves any invariant its steps preserve. -/
theorem foldl_inv {σ α : Type} {P : σ → Prop} {f : σ → α → σ} :
    ∀ (xs : List α), (∀ s a, a ∈ xs → P s → P (f s a)) →
      ∀ s, P s → P (xs.foldl f s) := by
  intro xs
  induction xs with
  | nil => intro _ s hs; exact hs
  | cons a xs ih =>
      intro hstep s hs
      rw [List.foldl_cons]
      exact ih (fun s' a' ha' => hstep s' a' (List.mem_cons_of_mem _ ha'))
        (f s a) (hstep s a (List.mem_cons_self _ _) hs)

/-! ### Invariants of `tryPackingStrategy` -/

theorem tryPackingStrategy_fit (measurements : List Measurement) (kerf : ℚ)
    (cand : List ℚ) : BoardsFit kerf (tryPackingStrategy measurements kerf cand) := by
  unfold tryPackingStrategy
  rcases hlast : (sortAsc cand).getLast? with _ | maxAllowed
  · simp only [hlast]
    intro b hb
    simp at hb
  · simp only [hlast]
    have hmax : maxAllowed ∈ sortAsc cand := getLast?_mem hlast
    refine foldl_inv (P := BoardsFit kerf) _ ?_ [] (by intro b hb; simp at hb)
    intro boards m _ hinv
    by_cases hover : maxAllowed < m.size
    · rw [if_pos hover]
      intro b' hb'
      rcases handleOversized_mem hmax hb' with h | ⟨c, hc, _, _, hle, _⟩
      · exact hinv b' h
      · rw [hc, calculateUsed_single]
        exact hle
    · rw [if_neg hover, placeMeasurement_eq_insertSplit]
      exact insertSplit_fit hinv

theorem tryPackingStrategy_nonempty (measurements : List Measurement) (kerf : ℚ)
    (cand : List ℚ) :
    ∀ b ∈ tryPackingStrategy measurements kerf cand, b.cuts ≠ [] := by
  unfold tryPackingStrategy
  rcases hlast : (sortAsc cand).getLast? with _ | maxAllowed
  · simp only [hlast]
    intro b hb
    simp at hb
  · simp only [hlast]
    have hmax : maxAllowed ∈ sortAsc cand := getLast?_mem hlast
    refine foldl_inv (P := fun (boards : List Board) => ∀ b ∈ boards, b.cuts ≠ []) _ ?_ []
      (by intro b hb; simp at hb)
    intro boards m _ hinv
    by_cases hover : maxAllowed < m.size
    · rw [if_pos hover]
      intro b' hb'
      rcases handleOversized_mem hmax hb' with h | ⟨c, hc, _, _, _, _⟩
      · exact hinv b' h
      · rw [hc]
        simp
    · rw [if_neg hover, placeMeasurement_eq_insertSplit]
      exact insertSplit_nonempty hinv

theorem tryPackingStrategy_id_pos {measurements : List Measurement} {kerf : ℚ}
    {cand : List ℚ} {mid : String}
    (hpos : ∀ l ∈ cand, 0 < l)
    (hover : ∀ m' ∈ measurements, m'.id = mid → ∀ l ∈ cand, l < m'.size) :
    ∀ c, InCuts (tryPackingStrategy measurements kerf cand) c →
      c.id = mid → 0 < c.size := by
  unfold tryPackingStrategy
  rcases hlast : (sortAsc cand).getLast? with _ | maxAllowed
  · simp only [hlast]
    intro c hc
    obtain ⟨b, hb, _⟩ := hc
    simp at hb
  · simp only [hlast]
    have hmaxmem : maxAllowed ∈ cand := sortAsc_mem.mp (getLast?_mem hlast)
    have hmaxpos : 0 < maxAllowed := hpos maxAllowed hmaxmem
    refine foldl_inv
      (P := fun (boards : List Board) => ∀ c, InCuts boards c → c.id = mid → 0 < c.size) _ ?_ []
      (by intro c hc _; obtain ⟨b, hb, _⟩ := hc; simp at hb)
    intro boards m hm hinv
    have hm' : m ∈ measurements := sortBySizeDesc_mem.mp hm
    by_cases hoverb : maxAllowed < m.size
    · rw [if_pos hoverb]
      intro c hc hcid
      obtain ⟨b', hb', hcb⟩ := hc
      rcases handleOversized_mem (sortAsc_mem.mpr hmaxmem) hb' with
        h | ⟨c₀, hc₀, hid₀, hpos₀, _, _⟩
      · exact hinv c ⟨b', h, hcb⟩ hcid
      · rw [hc₀, List.mem_singleton] at hcb
        subst hcb
        exact hpos₀ hmaxpos (lt_trans hmaxpos hoverb)
    · rw [if_neg hoverb, placeMeasurement_eq_insertSplit]
      intro c hc hcid
      rcases insertSplit_cuts hc with h | hcm
      · exact hinv c h hcid
      · exfalso
        rw [hcm] at hcid
        exact hoverb (hover m hm' hcid maxAllowed hmaxmem)

/-! ### The strategy selector -/

/-- The three selector phases are one fold over the ordered candidate
list. -/
theorem runStrategies_eq (measurements : List Measurement) (kerf : ℚ)
    (sortedLengths : List ℚ) :
    runStrategies measurements kerf sortedLengths =
      (strategyCandidates sortedLengths).foldl
        (fun st cand => selStep kerf st (tryPackingStrategy measurements kerf cand))
        { bestBoards := [], minWaste := none } := by
  unfold runStrategies strategyCandidates
  rw [List.foldl_append, List.foldl_append, List.foldl_map]
  by_cases h4 : sortedLengths.length ≤ 4
  · simp only [if_pos h4, List.foldl_cons, List.foldl_nil]
  · simp only [if_neg h4, List.foldl_cons, List.foldl_nil]

theorem pairsOf_mem {xs : List ℚ} {c : List ℚ} (h : c ∈ pairsOf xs) :
    ∃ x ∈ xs, ∃ y ∈ xs, c = [x, y] := by
  induction xs with
  | nil => simp [pairsOf] at h
  | cons x xs ih =>
      rw [pairsOf] at h
      rcases List.mem_append.mp h with h | h
      · obtain ⟨y, hy, hc⟩ := List.mem_map.mp h
        exact ⟨x, List.mem_cons_self _ _, y, List.mem_cons_of_mem _ hy, hc.symm⟩
      · obtain ⟨a, ha, b, hb, hc⟩ := ih h
        exact ⟨a, List.mem_cons_of_mem _ ha, b, List.mem_cons_of_mem _ hb, hc⟩

theorem strategyCandidates_sub {sortedLengths : List ℚ} {cand : List ℚ}
    (h : cand ∈ strategyCandidates sortedLengths) :
    ∀ l ∈ cand, l ∈ sortedLengths := by
  unfold strategyCandidates at h
  rcases List.mem_append.mp h with h | h
  · rcases List.mem_append.mp h with h | h
    · obtain ⟨x, hx, hc⟩ := List.mem_map.mp h
      intro l hl
      rw [← hc] at hl
      simp only [List.mem_singleton] at hl
      exact hl ▸ hx
    · simp only [List.mem_singleton] at h
      exact h ▸ fun l hl => hl
  · by_cases h4 : sortedLengths.length ≤ 4
    · rw [if_pos h4] at h
      obtain ⟨x, hx, y, hy, hc⟩ := pairsOf_mem h
      intro l hl
      rw [hc] at hl
      rcases List.mem_cons.mp hl with hl | hl
      · exact hl ▸ hx
      · simp only [List.mem_singleton] at hl
        exact hl ▸ hy
    · rw [if_neg h4] at h
      simp at h

theorem selStep_best_cases (kerf : ℚ) (st : SelState) (bs : List Board) :
    (selStep kerf st bs).bestBoards = bs ∨
    (selStep kerf st bs).bestBoards = st.bestBoards := by
  unfold selStep
  rcases hmw : st.minWaste with _ | mw
  · exact Or.inl rfl
  · simp only [hmw]
    split
    · exact Or.inl rfl
    · exact Or.inr rfl

/-- Any predicate of the incumbent board list survives the selector fold
when every evaluated candidate satisfies it. -/
theorem selfold_pred {kerf : ℚ} {P : List Board → Prop}
    (cs : List (List Board)) (st : SelState)
    (hcs : ∀ bs ∈ cs, P bs) (hst : P st.bestBoards) :
    P ((cs.foldl (selStep kerf) st).bestBoards) := by
  induction cs generalizing st with
  | nil => exact hst
  | cons bs cs ih =>
      rw [List.foldl_cons]
      refine ih _ (fun bs' hbs' => hcs bs' (List.mem_cons_of_mem _ hbs')) ?_
      rcases selStep_best_cases kerf st bs with h | h
      · rw [h]
        exact hcs bs (List.mem_cons_self _ _)
      · rw [h]
        exact hst

/-- The selector state invariant: when a minimum waste has been recorded it
is the waste of the incumbent board list. -/
def SelInv (kerf : ℚ) (st : SelState) : Prop :=
  ∀ w, st.minWaste = some w → w = calculateTotalWaste kerf st.bestBoards

theorem selStep_inv {kerf : ℚ} {st : SelState} (bs : List Board)
    (h : SelInv kerf st) : SelInv kerf (selStep kerf st bs) := by
  unfold selStep SelInv
  rcases hmw : st.minWaste with _ | mw
  · intro w hw
    cases hw
    rfl
  · simp only [hmw]
    split
    · intro w hw
      cases hw
      rfl
    · intro w hw
      exact h w (hmw ▸ hw)

theorem selStep_isSome (kerf : ℚ) (st : SelState) (bs : List Board) :
    ∃ w, (selStep kerf st bs).minWaste = some w := by
  unfold selStep
  rcases hmw : st.minWaste with _ | mw
  · exact ⟨_, rfl⟩
  · simp only [hmw]
    split
    · exact ⟨_, rfl⟩
    · exact ⟨mw, hmw⟩

theorem selStep_waste_le {kerf : ℚ} {st : SelState} {bs : List Board} {w' : ℚ}
    (hw' : (selStep kerf st bs).minWaste = some w') :
    (∀ w₀, st.minWaste = some w₀ → w' ≤ w₀) ∧
      w' ≤ calculateTotalWaste kerf bs := by
  unfold selStep at hw'
  rcases hmw : st.minWaste with _ | mw
  · simp only [hmw, Option.some_inj] at hw'
    subst hw'
    refine ⟨fun w₀ h => ?_, le_refl _⟩
    cases h
  · simp only [hmw] at hw'
    by_cases hc : calculateTotalWaste kerf bs < mw ∨
        (calculateTotalWaste kerf bs = mw ∧ bs.length < st.bestBoards.length)
    · rw [if_pos hc] at hw'
      simp only [Option.some_inj] at hw'
      subst hw'
      refine ⟨fun w₀ h => ?_, le_refl _⟩
      cases h
      rcases hc with hc | ⟨hc, _⟩
      · exact le_of_lt hc
      · exact le_of_eq hc
    · rw [if_neg hc] at hw'
      rw [hmw] at hw'
      simp only [Option.some_inj] at hw'
      subst hw'
      push_neg at hc
      refine ⟨fun w₀ h => ?_, hc.1⟩
      cases h
      exact le_refl _

/-- After the selector fold, the recorded waste is below the waste of every
evaluated candidate (and below any previously recorded waste). -/
theorem selfold_min {kerf : ℚ} (cs : List (List Board)) (st : SelState) {w : ℚ}
    (hw : (cs.foldl (selStep kerf) st).minWaste = some w) :
    (∀ w₀, st.minWaste = some w₀ → w ≤ w₀) ∧
      ∀ bs ∈ cs, w ≤ calculateTotalWaste kerf bs := by
  induction cs generalizing st with
  | nil =>
      refine ⟨fun w₀ h => ?_, by simp⟩
      rw [List.foldl_nil] at hw
      rw [hw] at h
      cases h
      exact le_refl _
  | cons bs cs ih =>
      rw [List.foldl_cons] at hw
      obtain ⟨hle₀, hcs⟩ := ih (selStep kerf st bs) hw
      obtain ⟨w₁, hw₁⟩ := selStep_isSome kerf st bs
      obtain ⟨hstep₀, hstepbs⟩ := selStep_waste_le hw₁
      have hww₁ : w ≤ w₁ := hle₀ w₁ hw₁
      refine ⟨fun w₀ h => le_trans hww₁ (hstep₀ w₀ h), ?_⟩
      intro bs' hbs'
      rcases List.mem_cons.mp hbs' with hbs' | hbs'
      · exact hbs' ▸ le_trans hww₁ hstepbs
      · exact hcs bs' hbs'

/-! ### The balanced-split post-processor -/

theorem sum_filter_le {p : Cut → Bool} (cuts : List Cut)
    (hdrop : ∀ c ∈ cuts, p c = false → 0 ≤ c.size) :
    ((cuts.filter p).map Cut.size).sum ≤ (cuts.map Cut.size).sum := by
  induction cuts with
  | nil => simp
  | cons c cuts ih =>
      have ih' := ih (fun c' hc' hp => hdrop c' (List.mem_cons_of_mem _ hc') hp)
      by_cases hp : p c = true
      · rw [List.filter_cons_of_pos hp]
        simp only [List.map_cons, List.sum_cons]
        linarith
      · rw [List.filter_cons_of_neg hp]
        have h0 : 0 ≤ c.size :=
          hdrop c (List.mem_cons_self _ _) (Bool.eq_false_iff.mpr hp)
        simp only [List.map_cons, List.sum_cons]
        linarith

theorem sum_nonneg_of_forall {cuts : List Cut}
    (h : ∀ c ∈ cuts, 0 ≤ c.size) : 0 ≤ (cuts.map Cut.size).sum := by
  induction cuts with
  | nil => simp
  | cons c cuts ih =>
      simp only [List.map_cons, List.sum_cons]
      have := h c (List.mem_cons_self _ _)
      have := ih (fun c' hc' => h c' (List.mem_cons_of_mem _ hc'))
      linarith

theorem calculateUsed_filter_le {kerf : ℚ} {p : Cut → Bool} {cuts : List Cut}
    (hk : 0 ≤ kerf) (hdrop : ∀ c ∈ cuts, p c = false → 0 ≤ c.size) :
    calculateUsed kerf (cuts.filter p) ≤ calculateUsed kerf cuts := by
  rcases eq_or_ne cuts [] with hnil | hnil
  · subst hnil
    simp [calculateUsed]
  · have hlen : cuts.length ≠ 0 := fun h => hnil (List.length_eq_zero.mp h)
    rcases eq_or_ne (cuts.filter p) [] with hf | hf
    · rw [hf, calculateUsed_nil]
      have hall : ∀ c ∈ cuts, 0 ≤ c.size := by
        intro c hc
        by_cases hp : p c = true
        · exfalso
          have : c ∈ cuts.filter p := List.mem_filter.mpr ⟨hc, hp⟩
          rw [hf] at this
          simp at this
        · exact hdrop c hc (Bool.eq_false_iff.mpr hp)
      have h1 : 0 ≤ (cuts.map Cut.size).sum := sum_nonneg_of_forall hall
      have h2 : (0:ℚ) ≤ ((cuts.length - 1 : ℕ) : ℚ) * kerf :=
        mul_nonneg (by positivity) hk
      unfold calculateUsed
      rw [if_neg hlen]
      linarith
    · have hflen : (cuts.filter p).length ≠ 0 :=
        fun h => hf (List.length_eq_zero.mp h)
      have h1 := sum_filter_le cuts hdrop
      have h2 : ((cuts.filter p).length - 1 : ℕ) ≤ (cuts.length - 1 : ℕ) :=
        Nat.sub_le_sub_right (List.length_filter_le p cuts) 1
      have h3 : (((cuts.filter p).length - 1 : ℕ) : ℚ) * kerf ≤
          ((cuts.length - 1 : ℕ) : ℚ) * kerf :=
        mul_le_mul_of_nonneg_right (by exact_mod_cast h2) hk
      unfold calculateUsed
      rw [if_neg hlen, if_neg hflen]
      linarith

theorem reworkMeasurement_skip {ls : List ℚ} {kerf maxB : ℚ}
    {boards : List Board} {m : Measurement}
    (h : ¬(m.splitEvenly = true ∧ maxB < m.size)) :
    reworkMeasurement ls kerf maxB boards m = boards := by
  unfold reworkMeasurement
  rw [if_neg]
  intro hcond
  rw [Bool.and_eq_true, decide_eq_true_eq] at hcond
  exact h hcond

theorem reworkMeasurement_fit {ls : List ℚ} {kerf maxB : ℚ}
    {boards : List Board} {m : Measurement}
    (hk : 0 ≤ kerf)
    (hpos : ∀ c, InCuts boards c → c.id = m.id → 0 ≤ c.size)
    (hfitb : BoardsFit kerf boards) :
    BoardsFit kerf (reworkMeasurement ls kerf maxB boards m) := by
  unfold reworkMeasurement
  split
  · refine foldl_inv (P := BoardsFit kerf) _
      (fun boards' s _ hinv => insertSplit_fit hinv) _ ?_
    intro b hb
    obtain ⟨hb1, _⟩ := List.mem_filter.mp hb
    obtain ⟨b₀, hb₀, hbeq⟩ := List.mem_map.mp hb1
    subst hbeq
    refine le_trans (calculateUsed_filter_le hk ?_) (hfitb b₀ hb₀)
    intro c hc hp
    simp only [ne_eq, decide_not, Bool.not_eq_false', decide_eq_true_eq] at hp
    exact hpos c ⟨b₀, hb₀, hc⟩ hp
  · exact hfitb

theorem reworkMeasurement_cuts {ls : List ℚ} {kerf maxB : ℚ}
    {boards : List Board} {m : Measurement} {c : Cut}
    (h : InCuts (reworkMeasurement ls kerf maxB boards m) c) :
    InCuts boards c ∨ c.id = m.id := by
  unfold reworkMeasurement at h
  by_cases hcond : (m.splitEvenly && decide (maxB < m.size)) = true
  · rw [if_pos hcond] at h
    refine foldl_inv
      (P := fun (boards' : List Board) =>
        ∀ c', InCuts boards' c' → InCuts boards c' ∨ c'.id = m.id)
      (calculateBalancedSplits m.size maxB) ?_ _ ?_ c h
    · intro boards' s _ hinv c' hc'
      rcases insertSplit_cuts hc' with h' | h'
      · exact hinv c' h'
      · exact Or.inr h'
    · intro c' hc'
      obtain ⟨b, hb, hcb⟩ := hc'
      obtain ⟨hb1, _⟩ := List.mem_filter.mp hb
      obtain ⟨b₀, hb₀, hbeq⟩ := List.mem_map.mp hb1
      subst hbeq
      obtain ⟨hcb', _⟩ := List.mem_filter.mp hcb
      exact Or.inl ⟨b₀, hb₀, hcb'⟩
  · rw [if_neg hcond] at h
    exact Or.inl h

theorem reworkMeasurement_nonempty {ls : List ℚ} {kerf maxB : ℚ}
    {boards : List Board} {m : Measurement}
    (hne : ∀ b ∈ boards, b.cuts ≠ []) :
    ∀ b ∈ reworkMeasurement ls kerf maxB boards m, b.cuts ≠ [] := by
  unfold reworkMeasurement
  split
  · refine foldl_inv
      (P := fun (boards' : List Board) => ∀ b ∈ boards', b.cuts ≠ []) _
      (fun boards' s _ hinv => insertSplit_nonempty hinv) _ ?_
    intro b hb
    obtain ⟨_, hlen⟩ := List.mem_filter.mp hb
    simp only [decide_eq_true_eq] at hlen
    exact fun hemp => by rw [hemp] at hlen; simp at hlen
  · exact hne

/-- Over the post-processing loop: no board list becomes oversubscribed,
provided the kerf is non-negative, the measurement identifiers are pairwise
distinct, and the cuts carried by yet-unprocessed `splitEvenly`-oversize
identifiers all have non-negative sizes. -/
theorem postfold_fit {ls : List ℚ} {kerf maxB : ℚ} :
    ∀ (ms : List Measurement) (boards : List Board),
      0 ≤ kerf →
      (ms.map Measurement.id).Nodup →
      BoardsFit kerf boards →
      (∀ m' ∈ ms, m'.splitEvenly = true → maxB < m'.size →
        ∀ c, InCuts boards c → c.id = m'.id → 0 ≤ c.size) →
      BoardsFit kerf (ms.foldl (reworkMeasurement ls kerf maxB) boards) := by
  intro ms
  induction ms with
  | nil => intro boards _ _ hfit _; exact hfit
  | cons m ms ih =>
      intro boards hk hnd hfit hq
      rw [List.foldl_cons]
      rw [List.map_cons, List.nodup_cons] at hnd
      refine ih _ hk hnd.2 ?_ ?_
      · by_cases hqual : m.splitEvenly = true ∧ maxB < m.size
        · exact reworkMeasurement_fit hk
            (fun c hc hcid => hq m (List.mem_cons_self _ _) hqual.1 hqual.2 c hc hcid)
            hfit
        · rw [reworkMeasurement_skip hqual]
          exact hfit
      · intro m' hm' hsplit hover c hc hcid
        rcases reworkMeasurement_cuts hc with hc' | hc'
        · exact hq m' (List.mem_cons_of_mem _ hm') hsplit hover c hc' hcid
        · exfalso
          rw [hcid] at hc'
          exact hnd.1 (hc' ▸ List.mem_map_of_mem Measurement.id hm')

/-- Over the post-processing loop: every board keeps at least one cut. -/
theorem postfold_nonempty {ls : List ℚ} {kerf maxB : ℚ}
    (ms : List Measurement) (boards : List Board)
    (hne : ∀ b ∈ boards, b.cuts ≠ []) :
    ∀ b ∈ ms.foldl (reworkMeasurement ls kerf maxB) boards, b.cuts ≠ [] :=
  foldl_inv (P := fun (boards' : List Board) => ∀ b ∈ boards', b.cuts ≠ []) ms
    (fun boards' m _ hinv => reworkMeasurement_nonempty hinv) boards hne

/-! ### The downgrade pass -/

theorem downgradeBoard_cuts (ls : List ℚ) (kerf : ℚ) (b : Board) :
    (downgradeBoard ls kerf b).cuts = b.cuts := by
  unfold downgradeBoard
  rcases hf : ls.find? (fun length =>
      decide (length < b.boardLength) && decide (calculateUsed kerf b.cuts ≤ length)) with _ | l
  · rfl
  · by_cases hz : l = 0
    · simp only [if_pos hz]
    · simp only [if_neg hz]

theorem downgradeBoard_length_le (ls : List ℚ) (kerf : ℚ) (b : Board) :
    (downgradeBoard ls kerf b).boardLength ≤ b.boardLength := by
  unfold downgradeBoard
  rcases hf : ls.find? (fun length =>
      decide (length < b.boardLength) && decide (calculateUsed kerf b.cuts ≤ length)) with _ | l
  · exact le_refl _
  · have hp := List.find?_some hf
    rw [Bool.and_eq_true, decide_eq_true_eq, decide_eq_true_eq] at hp
    by_cases hz : l = 0
    · simp only [if_pos hz]
      exact le_refl _
    · simp only [if_neg hz]
      exact le_of_lt hp.1

theorem downgradeBoard_fit (ls : List ℚ) {kerf : ℚ} {b : Board}
    (h : calculateUsed kerf b.cuts ≤ b.boardLength) :
    calculateUsed kerf (downgradeBoard ls kerf b).cuts ≤
      (downgradeBoard ls kerf b).boardLength := by
  rw [downgradeBoard_cuts]
  unfold downgradeBoard
  rcases hf : ls.find? (fun length =>
      decide (length < b.boardLength) && decide (calculateUsed kerf b.cuts ≤ length)) with _ | l
  · exact h
  · have hp := List.find?_some hf
    rw [Bool.and_eq_true, decide_eq_true_eq, decide_eq_true_eq] at hp
    by_cases hz : l = 0
    · simp only [if_pos hz]
      exact h
    · simp only [if_neg hz]
      exact hp.2

theorem mapWithIndex_mem {f : ℕ → Board → Board} :
    ∀ {i : ℕ} {bs : List Board} {b' : Board}, b' ∈ mapWithIndex f i bs →
      ∃ k b, b ∈ bs ∧ b' = f k b := by
  intro i bs
  induction bs generalizing i with
  | nil => intro b' h; simp [mapWithIndex] at h
  | cons b bs ih =>
      intro b' h
      rw [mapWithIndex] at h
      rcases List.mem_cons.mp h with h | h
      · exact ⟨i, b, List.mem_cons_self _ _, h⟩
      · obtain ⟨k, b₀, hb₀, heq⟩ := ih h
        exact ⟨k, b₀, List.mem_cons_of_mem _ hb₀, heq⟩

/-! ### Pipeline assembly -/

theorem calculateUsed_eq (kerf : ℚ) (cuts : List Cut) :
    calculateUsed kerf cuts =
      (cuts.map Cut.size).sum + ((cuts.length - 1 : ℕ) : ℚ) * kerf := by
  unfold calculateUsed
  rcases eq_or_ne cuts.length 0 with h | h
  · rw [if_pos h]
    have hnil : cuts = [] := List.length_eq_zero.mp h
    subst hnil
    simp
  · rw [if_neg h]

theorem runStrategies_eq_map (measurements : List Measurement) (kerf : ℚ)
    (sortedLengths : List ℚ) :
    runStrategies measurements kerf sortedLengths =
      ((strategyCandidates sortedLengths).map
        (tryPackingStrategy measurements kerf)).foldl (selStep kerf)
        { bestBoards := [], minWaste := none } := by
  rw [runStrategies_eq, List.foldl_map]

/-- The selected board list satisfies any predicate that holds of the empty
list and of every candidate packing. -/
theorem runStrategies_pred {measurements : List Measurement} {kerf : ℚ}
    {sortedLengths : List ℚ} {P : List Board → Prop}
    (hall : ∀ cand ∈ strategyCandidates sortedLengths,
      P (tryPackingStrategy measurements kerf cand))
    (hnil : P []) :
    P (runStrategies measurements kerf sortedLengths).bestBoards := by
  rw [runStrategies_eq_map]
  refine selfold_pred _ _ ?_ hnil
  intro bs hbs
  obtain ⟨cand, hcand, hc⟩ := List.mem_map.mp hbs
  exact hc ▸ hall cand hcand

/-- The board list after the balanced-split post-processing is still not
oversubscribed, under the data-model constraints: positive stock lengths,
non-negative kerf, pairwise-distinct measurement identifiers. -/
theorem postProcess_fit {config : BaseboardConfig}
    (hpos : ∀ l ∈ config.availableLengths, 0 < l)
    (hkerf : 0 ≤ config.kerf.getD (1 / 8))
    (hids : (config.measurements.map Measurement.id).Nodup) :
    BoardsFit (config.kerf.getD (1 / 8))
      (postProcessSplits config.measurements (sortAsc config.availableLengths)
        (config.kerf.getD (1 / 8))
        (runStrategies config.measurements (config.kerf.getD (1 / 8))
          (sortAsc config.availableLengths)).bestBoards) := by
  set kerf := config.kerf.getD (1 / 8) with hkdef
  have hfitsel : BoardsFit kerf
      (runStrategies config.measurements kerf (sortAsc config.availableLengths)).bestBoards :=
    runStrategies_pred (fun cand _ => tryPackingStrategy_fit _ _ _)
      (by intro b hb; simp at hb)
  unfold postProcessSplits
  rcases hlast : (sortAsc config.availableLengths).getLast? with _ | maxB
  · exact hfitsel
  · refine postfold_fit _ _ hkerf hids hfitsel ?_
    intro m' hm' hsplit hover c hc hcid
    revert hcid
    revert hc
    revert c
    refine runStrategies_pred (P := fun bs =>
      ∀ c, InCuts bs c → c.id = m'.id → 0 ≤ c.size) ?_ ?_
    · intro cand hcand
      intro c hc hcid
      refine le_of_lt (tryPackingStrategy_id_pos ?_ ?_ c hc hcid)
      · intro l hl
        exact hpos l (sortAsc_mem.mp (strategyCandidates_sub hcand l hl))
      · intro m'' hm'' hid l hl
        have hm : m'' = m' := List.inj_on_of_nodup_map hids hm'' hm' hid
        subst hm
        calc l ≤ maxB := by
              refine sorted_le_getLast (sortAsc_sorted config.availableLengths) hlast l ?_
              exact strategyCandidates_sub hcand l hl
          _ < m''.size := hover
    · intro c hc
      obtain ⟨b, hb, _⟩ := hc
      simp at hb

/-- Claim C2 in terms of `calculateUsed`: every board of the returned result
is within its chosen length. -/
theorem optimizeBaseboards_fit_aux {config : BaseboardConfig}
    (hpos : ∀ l ∈ config.availableLengths, 0 < l)
    (hkerf : 0 ≤ config.kerf.getD (1 / 8))
    (hids : (config.measurements.map Measurement.id).Nodup) :
    ∀ b ∈ (optimizeBaseboards config).1.boards,
      calculateUsed (config.kerf.getD (1 / 8)) b.cuts ≤ b.boardLength := by
  set kerf := config.kerf.getD (1 / 8) with hkdef
  unfold optimizeBaseboards
  by_cases hlen : config.availableLengths.length = 0
  · rw [if_pos hlen]
    intro b hb
    simp at hb
  · rw [if_neg hlen]
    intro b' hb'
    simp only [optimizeCore] at hb'
    obtain ⟨k, b₀, hb₀, hbeq⟩ := mapWithIndex_mem hb'
    obtain ⟨b₁, hb₁, hdg⟩ := List.mem_map.mp hb₀
    have hfit1 : calculateUsed kerf b₁.cuts ≤ b₁.boardLength :=
      postProcess_fit hpos hkerf hids b₁ hb₁
    have hfit0 : calculateUsed kerf b₀.cuts ≤ b₀.boardLength :=
      hdg ▸ downgradeBoard_fit _ hfit1
    rw [hbeq]
    exact hfit0

/-- Claim C10 auxiliary: the returned boards all carry at least one cut. -/
theorem optimizeBaseboards_nonempty_aux (config : BaseboardConfig) :
    ∀ b ∈ (optimizeBaseboards config).1.boards, b.cuts ≠ [] := by
  unfold optimizeBaseboards
  by_cases hlen : config.availableLengths.length = 0
  · rw [if_pos hlen]
    intro b hb
    simp at hb
  · rw [if_neg hlen]
    intro b' hb'
    simp only [optimizeCore] at hb'
    obtain ⟨k, b₀, hb₀, hbeq⟩ := mapWithIndex_mem hb'
    obtain ⟨b₁, hb₁, hdg⟩ := List.mem_map.mp hb₀
    have hpost : ∀ b ∈ postProcessSplits config.measurements
        (sortAsc config.availableLengths) (config.kerf.getD (1 / 8))
        (runStrategies config.measurements (config.kerf.getD (1 / 8))
          (sortAsc config.availableLengths)).bestBoards, b.cuts ≠ [] := by
      unfold postProcessSplits
      rcases (sortAsc config.availableLengths).getLast? with _ | maxB
      · exact runStrategies_pred
          (P := fun (bs : List Board) => ∀ b ∈ bs, b.cuts ≠ [])
          (fun cand _ => tryPackingStrategy_nonempty _ _ _)
          (by intro b hb; simp at hb)
      · exact postfold_nonempty _ _
          (runStrategies_pred
            (P := fun (bs : List Board) => ∀ b ∈ bs, b.cuts ≠ [])
            (fun cand _ => tryPackingStrategy_nonempty _ _ _)
            (by intro b hb; simp at hb))
    have hne1 : b₁.cuts ≠ [] := hpost b₁ hb₁
    have hne0 : b₀.cuts ≠ [] := by
      rw [← hdg, downgradeBoard_cuts]
      exact hne1
    rw [hbeq]
    exact hne0

/-! ### Claim theorems -/

/-- **C3**: with an empty `availableLengths` list, `optimizeBaseboards`
returns (rather than throws) the empty result — no boards, zero totals, an
empty count map — and emits a warning on the separate toast channel; with a
non-empty list no warning is emitted, so the warning channel distinguishes
the invalid-configuration empty result from a legitimately empty one. -/
theorem C3_empty_stock_warning (config : BaseboardConfig) :
    (config.availableLengths = [] →
      (optimizeBaseboards config).1.boards = [] ∧
      (optimizeBaseboards config).1.summary.totalBoards = 0 ∧
      (optimizeBaseboards config).1.summary.boardCounts = [] ∧
      (optimizeBaseboards config).1.summary.totalWaste = 0 ∧
      (optimizeBaseboards config).2 ≠ []) ∧
    (config.availableLengths ≠ [] → (optimizeBaseboards config).2 = []) := by
  unfold optimizeBaseboards
  constructor
  · intro h
    rw [if_pos (by rw [h]; rfl)]
    exact ⟨rfl, rfl, rfl, rfl, by simp⟩
  · intro h
    rw [if_neg (fun hl => h (List.length_eq_zero.mp hl))]

/-- Witness for C3 at a concrete configuration with measurements but no
stock lengths. -/
theorem C3_empty_stock_warning_witness :
    (optimizeBaseboards
      { measurements := [{ id := "w1", size := 50 }], availableLengths := [] }).1.boards = [] ∧
    (optimizeBaseboards
      { measurements := [{ id := "w1", size := 50 }], availableLengths := [] }).1.summary.totalBoards = 0 ∧
    (optimizeBaseboards
      { measurements := [{ id := "w1", size := 50 }], availableLengths := [] }).1.summary.boardCounts = [] ∧
    (optimizeBaseboards
      { measurements := [{ id := "w1", size := 50 }], availableLengths := [] }).1.summary.totalWaste = 0 ∧
    (optimizeBaseboards
      { measurements := [{ id := "w1", size := 50 }], availableLengths := [] }).2 ≠ [] :=
  (C3_empty_stock_warning _).1 rfl

/-- **C10**: every board of every returned result carries at least one cut:
boards are created only together with a cut, and the balanced-split rework
filters out boards it empties before re-inserting pieces. -/
theorem C10_every_board_has_a_cut (config : BaseboardConfig) :
    ∀ b ∈ (optimizeBaseboards config).1.boards, b.cuts ≠ [] :=
  optimizeBaseboards_nonempty_aux config

/-- **C2**: no returned board is oversubscribed — the sum of its cut sizes
plus `(count − 1) × kerf` is at most its chosen length — under the data
model constraints of the specification (positive stock lengths,
non-negative kerf, pairwise-distinct measurement identifiers). -/
theorem C2_no_oversubscription (config : BaseboardConfig)
    (hpos : ∀ l ∈ config.availableLengths, 0 < l)
    (hkerf : 0 ≤ config.kerf.getD (1 / 8))
    (hids : (config.measurements.map Measurement.id).Nodup) :
    ∀ b ∈ (optimizeBaseboards config).1.boards,
      (b.cuts.map Cut.size).sum +
        ((b.cuts.length - 1 : ℕ) : ℚ) * config.kerf.getD (1 / 8) ≤
        b.boardLength := by
  intro b hb
  rw [← calculateUsed_eq]
  exact optimizeBaseboards_fit_aux hpos hkerf hids b hb

set_option maxRecDepth 100000 in
/-- Concrete run used by several witnesses: one 50-unit measurement against
96-unit stock yields a single 96 board holding the one cut. -/
theorem optimizeBaseboards_scenarioA :
    (optimizeBaseboards { measurements := [{ id := "w1", size := 50 }], availableLengths := [96] }).1.boards =
      [{ boardLength := 96, cuts := [{ id := "w1", size := 50 }], displayName := some "Board A" }] := by
  norm_num [optimizeBaseboards, optimizeCore, runStrategies, tryPackingStrategy, sortAsc,
    sortBySizeDesc, List.insertionSort, List.orderedInsert, selStep, calculateTotalWaste,
    calculateUsed, placeMeasurement, insertSplit, bestFitIndex, bestFitStep,
    findBestNewBoard, handleOversized, handleOversizedGo, oversizeFuel, pairsOf,
    postProcessSplits, reworkMeasurement, calculateSummaryStats, downgradeBoard,
    modifyAt, pushCut, canFit, List.find?, mapWithIndex, calculateBalancedSplits,
    jsRound, generateBoardName, generateBoardNameGo, List.replicate, List.set,
    show "Board " ++ String.mk [Char.ofNat 65] = "Board A" from rfl]

/-- Witness for C2 at the scenario-A configuration and its returned
board. -/
theorem C2_no_oversubscription_witness :
    ((({ boardLength := 96, cuts := [{ id := "w1", size := 50 }], displayName := some "Board A" } : Board)).cuts.map Cut.size).sum +
      (((({ boardLength := 96, cuts := [{ id := "w1", size := 50 }], displayName := some "Board A" } : Board)).cuts.length - 1 : ℕ) : ℚ) *
        (({ measurements := [{ id := "w1", size := 50 }], availableLengths := [96] } : BaseboardConfig)).kerf.getD (1 / 8) ≤
      (({ boardLength := 96, cuts := [{ id := "w1", size := 50 }], displayName := some "Board A" } : Board)).boardLength :=
  C2_no_oversubscription
    { measurements := [{ id := "w1", size := 50 }], availableLengths := [96] }
    (by intro l hl; rw [List.mem_singleton] at hl; subst hl; norm_num)
    (by norm_num)
    (by simp)
    _ (by rw [optimizeBaseboards_scenarioA]; exact List.mem_singleton.mpr rfl)

/-- Witness for C10 at the scenario-A configuration and its returned
board. -/
theorem C10_every_board_has_a_cut_witness :
    (({ boardLength := 96, cuts := [{ id := "w1", size := 50 }], displayName := some "Board A" } : Board)).cuts ≠ [] :=
  C10_every_board_has_a_cut
    { measurements := [{ id := "w1", size := 50 }], availableLengths := [96] }
    _ (by rw [optimizeBaseboards_scenarioA]; exact List.mem_singleton.mpr rfl)

/-- **C9** (evaluation at the failing index): the name generator uses plain
base-26 digits with `A` as zero, so index 26 yields `"BA"`, not the `"AA"`
that both the claim and the function's own doc comment describe: the
bijective sequence `A, …, Z, AA, …` is not what the loop computes. -/
theorem C9_generateBoardName_at_26 : generateBoardName 26 = "BA" := rfl

/-! ### C7: the balanced-split computation -/

theorem replicate_set_last (k : ℕ) (r v : ℚ) :
    (List.replicate (k + 1) r).set k v = List.replicate k r ++ [v] := by
  induction k with
  | zero => rfl
  | succ k ih =>
      rw [List.replicate_succ, List.set_cons_succ, ih]
      rw [List.replicate_succ]
      simp

theorem replicate_get? {r : ℚ} : ∀ {m i : ℕ}, i < m →
    (List.replicate m r).get? i = some r := by
  intro m
  induction m with
  | zero => intro i h; cases h
  | succ m ih =>
      intro i h
      rw [List.replicate_succ]
      match i with
      | 0 => rfl
      | i + 1 =>
          rw [List.get?_cons_succ]
          exact ih (Nat.lt_of_succ_lt_succ h)

/-- **C7**: for `totalSize > maxBoardLength > 0`, `calculateBalancedSplits`
returns exactly `n = ⌈totalSize / maxBoardLength⌉` pieces; every piece
before the last equals `totalSize / n` rounded to the nearest sixteenth
(JavaScript `Math.round` semantics), the last piece is that rounded base
plus the residual `totalSize − n × base`, and the pieces sum exactly to
`totalSize`. -/
theorem C7_balanced_splits (totalSize maxBoardLength : ℚ)
    (hmax : 0 < maxBoardLength) (hlt : maxBoardLength < totalSize) :
    (calculateBalancedSplits totalSize maxBoardLength).length =
      (⌈totalSize / maxBoardLength⌉).toNat ∧
    (∀ i : ℕ, i + 1 < (⌈totalSize / maxBoardLength⌉).toNat →
      (calculateBalancedSplits totalSize maxBoardLength).get? i =
        some ((jsRound (totalSize / (⌈totalSize / maxBoardLength⌉ : ℚ) / (1 / 16)) : ℚ) * (1 / 16))) ∧
    ((calculateBalancedSplits totalSize maxBoardLength).get?
        ((⌈totalSize / maxBoardLength⌉).toNat - 1) =
      some ((jsRound (totalSize / (⌈totalSize / maxBoardLength⌉ : ℚ) / (1 / 16)) : ℚ) * (1 / 16) +
        (totalSize -
          (jsRound (totalSize / (⌈totalSize / maxBoardLength⌉ : ℚ) / (1 / 16)) : ℚ) * (1 / 16) *
            (⌈totalSize / maxBoardLength⌉ : ℚ)))) ∧
    (calculateBalancedSplits totalSize maxBoardLength).sum = totalSize := by
  have hratio : (1 : ℚ) < totalSize / maxBoardLength :=
    (one_lt_div hmax).mpr hlt
  have hn1 : (1 : ℤ) < ⌈totalSize / maxBoardLength⌉ := by
    rw [Int.lt_ceil]
    exact_mod_cast hratio
  have hn0 : (0 : ℤ) ≤ ⌈totalSize / maxBoardLength⌉ := by linarith
  have hcast : ((⌈totalSize / maxBoardLength⌉.toNat : ℕ) : ℚ) =
      ((⌈totalSize / maxBoardLength⌉ : ℤ) : ℚ) := by
    exact_mod_cast Int.toNat_of_nonneg hn0
  obtain ⟨m, hm⟩ : ∃ m : ℕ, ⌈totalSize / maxBoardLength⌉.toNat = m + 1 := by
    have : 1 ≤ ⌈totalSize / maxBoardLength⌉.toNat := by
      rw [Int.le_toNat (by linarith)]
      exact_mod_cast hn1.le
    exact ⟨⌈totalSize / maxBoardLength⌉.toNat - 1, (Nat.succ_pred_eq_of_pos this).symm⟩
  have hsplit : calculateBalancedSplits totalSize maxBoardLength =
      List.replicate m
          ((jsRound (totalSize / (⌈totalSize / maxBoardLength⌉ : ℚ) / (1 / 16)) : ℚ) * (1 / 16)) ++
        [(jsRound (totalSize / (⌈totalSize / maxBoardLength⌉ : ℚ) / (1 / 16)) : ℚ) * (1 / 16) +
          (totalSize -
            (jsRound (totalSize / (⌈totalSize / maxBoardLength⌉ : ℚ) / (1 / 16)) : ℚ) * (1 / 16) *
              (⌈totalSize / maxBoardLength⌉ : ℚ))] := by
    simp only [calculateBalancedSplits]
    rw [hm, Nat.add_sub_cancel]
    exact replicate_set_last m _ _
  refine ⟨?_, ?_, ?_, ?_⟩
  · rw [hsplit, hm]
    simp
  · intro i hi
    rw [hsplit]
    rw [hm] at hi
    have him : i < m := by omega
    rw [List.get?_append (by simpa using him)]
    exact replicate_get? him
  · rw [hsplit, hm, Nat.add_sub_cancel]
    rw [List.get?_append_right (by simp)]
    simp
  · rw [hsplit]
    rw [List.sum_append, List.sum_replicate, List.sum_cons, List.sum_nil]
    have : ((⌈totalSize / maxBoardLength⌉ : ℤ) : ℚ) = (m : ℚ) + 1 := by
      rw [← hcast, hm]
      push_cast
      ring
    rw [this]
    push_cast
    ring

/-- Witness for C7 at `totalSize = 6`, `maxBoardLength = 2` (three balanced
pieces summing to six). -/
theorem C7_balanced_splits_witness :
    (0 : ℚ) < 2 ∧ (2 : ℚ) < 6 ∧ (calculateBalancedSplits 6 2).sum = 6 :=
  ⟨by norm_num, by norm_num, (C7_balanced_splits 6 2 (by norm_num) (by norm_num)).2.2.2⟩

/-! ### C6: the downgrade pass -/

theorem find?_sorted_min {l : List ℚ} {p : ℚ → Bool} {a : ℚ}
    (hs : List.Sorted (· ≤ ·) l) (hf : l.find? p = some a) :
    ∀ x ∈ l, p x = true → a ≤ x := by
  induction l with
  | nil => simp at hf
  | cons y ys ih =>
      rw [List.find?_cons] at hf
      by_cases hy : p y = true
      · rw [hy, Option.some_inj] at hf
        subst hf
        intro x hx _
        rcases List.mem_cons.mp hx with hx | hx
        · exact le_of_eq hx.symm
        · exact (List.sorted_cons.mp hs).1 x hx
      · rw [Bool.not_eq_true] at hy
        rw [hy] at hf
        intro x hx hpx
        rw [← Bool.not_eq_true] at hy
        rcases List.mem_cons.mp hx with hx | hx
        · exact absurd (hx ▸ hpx) hy
        · exact ih (List.sorted_cons.mp hs).2 hf x hx hpx


/-- **C6**: the downgrade pass per board, over the sorted available lengths
(all positive per the data model): it never touches the cuts, never grows
the board; when the board was within its length it stays within the new
length; the chosen length stays a member of `availableLengths`; when some
available length is strictly smaller than the current length and at least
the used length, the board length becomes such a length, minimal among them
(the first in ascending order); otherwise the board is unchanged. -/
theorem C6_downgrade_pass (availableLengths : List ℚ) (kerf : ℚ) (b : Board)
    (hpos : ∀ l ∈ availableLengths, 0 < l) :
    (downgradeBoard (sortAsc availableLengths) kerf b).cuts = b.cuts ∧
    (downgradeBoard (sortAsc availableLengths) kerf b).boardLength ≤ b.boardLength ∧
    (calculateUsed kerf b.cuts ≤ b.boardLength →
      calculateUsed kerf b.cuts ≤
        (downgradeBoard (sortAsc availableLengths) kerf b).boardLength) ∧
    (b.boardLength ∈ availableLengths →
      (downgradeBoard (sortAsc availableLengths) kerf b).boardLength ∈ availableLengths) ∧
    ((∃ l ∈ availableLengths, l < b.boardLength ∧ calculateUsed kerf b.cuts ≤ l) →
      (downgradeBoard (sortAsc availableLengths) kerf b).boardLength ∈ availableLengths ∧
      (downgradeBoard (sortAsc availableLengths) kerf b).boardLength < b.boardLength ∧
      calculateUsed kerf b.cuts ≤
        (downgradeBoard (sortAsc availableLengths) kerf b).boardLength ∧
      (∀ l ∈ availableLengths, l < b.boardLength → calculateUsed kerf b.cuts ≤ l →
        (downgradeBoard (sortAsc availableLengths) kerf b).boardLength ≤ l)) ∧
    ((∀ l ∈ availableLengths, ¬(l < b.boardLength ∧ calculateUsed kerf b.cuts ≤ l)) →
      downgradeBoard (sortAsc availableLengths) kerf b = b) := by
  refine ⟨downgradeBoard_cuts _ _ _, downgradeBoard_length_le _ _ _, ?_, ?_, ?_, ?_⟩
  · intro hfitb
    have h := downgradeBoard_fit (sortAsc availableLengths) hfitb
    rwa [downgradeBoard_cuts] at h
  · intro hmem
    unfold downgradeBoard
    rcases hf : (sortAsc availableLengths).find? (fun length =>
        decide (length < b.boardLength) &&
        decide (calculateUsed kerf b.cuts ≤ length)) with _ | l
    · exact hmem
    · have hlm : l ∈ availableLengths :=
        sortAsc_mem.mp (List.mem_of_find?_eq_some hf)
      have hz : l ≠ 0 := ne_of_gt (hpos l hlm)
      simp only [if_neg hz]
      exact hlm
  · intro ⟨l₀, hl₀, hlt₀, hle₀⟩
    rcases hf : (sortAsc availableLengths).find? (fun length =>
        decide (length < b.boardLength) &&
        decide (calculateUsed kerf b.cuts ≤ length)) with _ | l
    · exfalso
      have := List.find?_eq_none.mp hf l₀ (sortAsc_mem.mpr hl₀)
      rw [Bool.and_eq_true, decide_eq_true_eq, decide_eq_true_eq] at this
      exact this ⟨hlt₀, hle₀⟩
    · have hp := List.find?_some hf
      rw [Bool.and_eq_true, decide_eq_true_eq, decide_eq_true_eq] at hp
      have hlm : l ∈ availableLengths :=
        sortAsc_mem.mp (List.mem_of_find?_eq_some hf)
      have hz : l ≠ 0 := ne_of_gt (hpos l hlm)
      have hres : (downgradeBoard (sortAsc availableLengths) kerf b).boardLength = l := by
        unfold downgradeBoard
        rw [hf]
        simp only [if_neg hz]
      refine ⟨hres ▸ hlm, hres ▸ hp.1, hres ▸ hp.2, ?_⟩
      intro l' hl' hlt' hle'
      rw [hres]
      refine find?_sorted_min (sortAsc_sorted availableLengths) hf l'
        (sortAsc_mem.mpr hl') ?_
      rw [Bool.and_eq_true, decide_eq_true_eq, decide_eq_true_eq]
      exact ⟨hlt', hle'⟩
  · intro hnone
    unfold downgradeBoard
    rcases hf : (sortAsc availableLengths).find? (fun length =>
        decide (length < b.boardLength) &&
        decide (calculateUsed kerf b.cuts ≤ length)) with _ | l
    · rfl
    · exfalso
      have hp := List.find?_some hf
      rw [Bool.and_eq_true, decide_eq_true_eq, decide_eq_true_eq] at hp
      exact hnone l (sortAsc_mem.mp (List.mem_of_find?_eq_some hf)) hp

/-- Witness for C6 at a board of length 8 with one 3-unit cut and stock
lengths 4 and 8: the pass keeps the cuts and shrinks the board to 4. -/
theorem C6_downgrade_pass_witness :
    (∀ l ∈ ([4, 8] : List ℚ), 0 < l) ∧
    (downgradeBoard (sortAsc [4, 8]) (1 / 8)
      { boardLength := 8, cuts := [{ id := "x", size := 3 }] }).cuts =
      [{ id := "x", size := 3 }] :=
  ⟨by intro l hl; rcases List.mem_cons.mp hl with h | h;
      · subst h; norm_num
      · rw [List.mem_singleton] at h; subst h; norm_num,
   (C6_downgrade_pass [4, 8] (1 / 8)
      { boardLength := 8, cuts := [{ id := "x", size := 3 }] }
      (by intro l hl; rcases List.mem_cons.mp hl with h | h;
          · subst h; norm_num
          · rw [List.mem_singleton] at h; subst h; norm_num)).1⟩

/-! ### C4: the selector keeps the first lexicographic minimum -/

theorem lexLe_refl (a : ℚ × ℕ) : lexLe a a := Or.inr ⟨rfl, le_refl _⟩

theorem lexLt_weaken {a b : ℚ × ℕ} (h : lexLt a b) : lexLe a b := by
  rcases h with h | ⟨h1, h2⟩
  · exact Or.inl h
  · exact Or.inr ⟨h1, le_of_lt h2⟩

theorem lexLe_of_not_lexLt {a b : ℚ × ℕ} (h : ¬lexLt a b) : lexLe b a := by
  unfold lexLt at h
  push_neg at h
  rcases lt_trichotomy b.1 a.1 with h1 | h1 | h1
  · exact Or.inl h1
  · exact Or.inr ⟨h1, h.2 h1.symm⟩
  · exact absurd h1 h.1.not_lt

theorem lexLt_trans_lexLe {a b c : ℚ × ℕ} (h1 : lexLt a b) (h2 : lexLe b c) :
    lexLt a c := by
  rcases h1 with h1 | ⟨he1, hl1⟩ <;> rcases h2 with h2 | ⟨he2, hl2⟩
  · exact Or.inl (lt_trans h1 h2)
  · exact Or.inl (he2 ▸ h1)
  · exact Or.inl (he1 ▸ h2)
  · exact Or.inr ⟨he1.trans he2, lt_of_lt_of_le hl1 hl2⟩

/-- When the incumbent has a recorded waste, the selector step keeps the
incumbent boards unless the candidate is strictly lexicographically
better. -/
theorem selStep_best_of_some {kerf : ℚ} {st : SelState} {mw : ℚ}
    (bs : List Board) (h : st.minWaste = some mw) :
    (selStep kerf st bs).bestBoards =
      if calculateTotalWaste kerf bs < mw ∨
          (calculateTotalWaste kerf bs = mw ∧ bs.length < st.bestBoards.length)
      then bs else st.bestBoards := by
  unfold selStep
  split
  · rename_i heq
    rw [h] at heq
    cases heq
  · rename_i mA heq
    rw [h, Option.some_inj] at heq
    subst heq
    by_cases hc : calculateTotalWaste kerf bs < mw ∨
        (calculateTotalWaste kerf bs = mw ∧ bs.length < st.bestBoards.length)
    · rw [if_pos hc, if_pos hc]
    · rw [if_neg hc, if_neg hc]

/-- Nonempty selector folds record the waste of the incumbent. -/
theorem selfold_some (kerf : ℚ) (rs : List (List Board)) (hne : rs ≠ []) :
    (rs.foldl (selStep kerf) { bestBoards := [], minWaste := none }).minWaste =
      some (calculateTotalWaste kerf
        (rs.foldl (selStep kerf) { bestBoards := [], minWaste := none }).bestBoards) := by
  have hinv : SelInv kerf (rs.foldl (selStep kerf) { bestBoards := [], minWaste := none }) :=
    foldl_inv (P := SelInv kerf) rs (fun st bs _ h => selStep_inv bs h) _
      (by intro w hw; cases hw)
  rcases List.eq_nil_or_concat rs with hrs | ⟨rs', r, hrs⟩
  · exact absurd hrs hne
  subst hrs
  simp only [List.concat_eq_append] at hinv ⊢
  rw [List.foldl_append, List.foldl_cons, List.foldl_nil] at hinv ⊢
  obtain ⟨w, hw⟩ := selStep_isSome kerf
    (rs'.foldl (selStep kerf) { bestBoards := [], minWaste := none }) r
  rw [hw]
  rw [hinv w hw]

/-- The selector fold keeps the first candidate achieving the lexicographic
minimum of (waste, board count). -/
theorem selfold_first_argmin (kerf : ℚ) (rs : List (List Board)) (hne : rs ≠ []) :
    ∃ i bs, rs.get? i = some bs ∧
      (rs.foldl (selStep kerf) { bestBoards := [], minWaste := none }).bestBoards = bs ∧
      (∀ j cs, rs.get? j = some cs → lexLe (score kerf bs) (score kerf cs)) ∧
      (∀ j cs, j < i → rs.get? j = some cs → lexLt (score kerf bs) (score kerf cs)) := by
  induction rs using List.reverseRecOn with
  | nil => exact absurd rfl hne
  | append_singleton rs r ih =>
      rcases eq_or_ne rs [] with hnil | hnil
      · subst hnil
        refine ⟨0, r, rfl, rfl, ?_, ?_⟩
        · intro j cs hj
          rw [List.nil_append] at hj
          match j, hj with
          | 0, hj =>
              simp only [List.get?_cons_zero, Option.some_inj] at hj
              exact hj ▸ lexLe_refl _
          | n + 1, hj => exact absurd hj (by simp)
        · intro j cs hlt hj
          exact absurd hlt (Nat.not_lt_zero j)
      · obtain ⟨i, bs, hget, hbest, hall, hfirst⟩ := ih hnil
        have hisome := selfold_some kerf rs hnil
        have hib : i < rs.length := List.get?_eq_some.mp hget |>.1
        rw [List.foldl_append, List.foldl_cons, List.foldl_nil]
        by_cases hrep : lexLt (score kerf r)
            (score kerf (rs.foldl (selStep kerf) { bestBoards := [], minWaste := none }).bestBoards)
        · have hstep : (selStep kerf
              (rs.foldl (selStep kerf) { bestBoards := [], minWaste := none }) r).bestBoards = r := by
            rw [selStep_best_of_some r hisome, if_pos]
            rcases hrep with h | ⟨h1, h2⟩
            · exact Or.inl h
            · exact Or.inr ⟨h1, h2⟩
          rw [hbest] at hrep
          refine ⟨rs.length, r, ?_, hstep, ?_, ?_⟩
          · rw [List.get?_append_right (le_refl _), Nat.sub_self]
            rfl
          · intro j cs hj
            by_cases hjlen : j < rs.length
            · rw [List.get?_append hjlen] at hj
              exact lexLt_weaken (lexLt_trans_lexLe hrep (hall j cs hj))
            · rw [List.get?_append_right (Nat.le_of_not_lt hjlen)] at hj
              rcases hd : j - rs.length with _ | n
              · rw [hd] at hj
                simp only [List.get?_cons_zero, Option.some_inj] at hj
                exact hj ▸ lexLe_refl _
              · rw [hd] at hj
                simp at hj
          · intro j cs hlt hj
            rw [List.get?_append hlt] at hj
            exact lexLt_trans_lexLe hrep (hall j cs hj)
        · have hstep : (selStep kerf
              (rs.foldl (selStep kerf) { bestBoards := [], minWaste := none }) r).bestBoards =
              (rs.foldl (selStep kerf) { bestBoards := [], minWaste := none }).bestBoards := by
            rw [selStep_best_of_some r hisome, if_neg]
            intro hcond
            refine hrep ?_
            rcases hcond with h | ⟨h1, h2⟩
            · exact Or.inl h
            · exact Or.inr ⟨h1, h2⟩
          rw [hbest] at hrep hstep
          refine ⟨i, bs, ?_, hstep, ?_, ?_⟩
          · rw [List.get?_append hib]
            exact hget
          · intro j cs hj
            by_cases hjlen : j < rs.length
            · rw [List.get?_append hjlen] at hj
              exact hall j cs hj
            · rw [List.get?_append_right (Nat.le_of_not_lt hjlen)] at hj
              rcases hd : j - rs.length with _ | n
              · rw [hd] at hj
                simp only [List.get?_cons_zero, Option.some_inj] at hj
                exact hj ▸ lexLe_of_not_lexLt hrep
              · rw [hd] at hj
                simp at hj
          · intro j cs hlt hj
            rw [List.get?_append (lt_trans hlt hib)] at hj
            exact hfirst j cs hlt hj

/-- **C4**: the selector evaluates the candidates in the order singletons,
full set, pairs (`strategyCandidates`), replaces the incumbent only on
strictly lower waste or an exact waste tie with strictly fewer boards, and
therefore returns the first candidate attaining the lexicographic minimum
of (total waste, board count). -/
theorem C4_selection_first_min (measurements : List Measurement) (kerf : ℚ)
    (sortedLengths : List ℚ) :
    ∃ i bs,
      ((strategyCandidates sortedLengths).map
          (tryPackingStrategy measurements kerf)).get? i = some bs ∧
      (runStrategies measurements kerf sortedLengths).bestBoards = bs ∧
      (∀ j cs, ((strategyCandidates sortedLengths).map
          (tryPackingStrategy measurements kerf)).get? j = some cs →
        lexLe (score kerf bs) (score kerf cs)) ∧
      (∀ j cs, j < i → ((strategyCandidates sortedLengths).map
          (tryPackingStrategy measurements kerf)).get? j = some cs →
        lexLt (score kerf bs) (score kerf cs)) := by
  rw [runStrategies_eq_map]
  refine selfold_first_argmin kerf _ ?_
  intro hmapnil
  rw [List.map_eq_nil] at hmapnil
  unfold strategyCandidates at hmapnil
  simp at hmapnil

/-- Witness for C4 at a concrete input. -/
theorem C4_selection_first_min_witness :
    ∃ i bs,
      ((strategyCandidates [(96 : ℚ)]).map
          (tryPackingStrategy [{ id := "w1", size := 50 }] (1 / 8))).get? i = some bs ∧
      (runStrategies [{ id := "w1", size := 50 }] (1 / 8) [(96 : ℚ)]).bestBoards = bs ∧
      (∀ j cs, ((strategyCandidates [(96 : ℚ)]).map
          (tryPackingStrategy [{ id := "w1", size := 50 }] (1 / 8))).get? j = some cs →
        lexLe (score (1 / 8) bs) (score (1 / 8) cs)) ∧
      (∀ j cs, j < i → ((strategyCandidates [(96 : ℚ)]).map
          (tryPackingStrategy [{ id := "w1", size := 50 }] (1 / 8))).get? j = some cs →
        lexLt (score (1 / 8) bs) (score (1 / 8) cs)) :=
  C4_selection_first_min [{ id := "w1", size := 50 }] (1 / 8) [(96 : ℚ)]

/-! ### C5: waste relative to the singleton strategies -/

theorem calculateTotalWaste_eq_sum (kerf : ℚ) (boards : List Board) :
    calculateTotalWaste kerf boards =
      (boards.map (fun b => b.boardLength - calculateUsed kerf b.cuts)).sum := by
  suffices H : ∀ (bs : List Board) (init : ℚ),
      bs.foldl (fun total board =>
        total + (board.boardLength - calculateUsed kerf board.cuts)) init =
        init + (bs.map (fun b => b.boardLength - calculateUsed kerf b.cuts)).sum by
    rw [calculateTotalWaste, H, zero_add]
  intro bs
  induction bs with
  | nil => intro init; simp
  | cons b bs ih =>
      intro init
      rw [List.foldl_cons, ih, List.map_cons, List.sum_cons]
      ring

theorem totalWaste_downgrade_le (ls : List ℚ) (kerf : ℚ) (boards : List Board) :
    calculateTotalWaste kerf (boards.map (downgradeBoard ls kerf)) ≤
      calculateTotalWaste kerf boards := by
  rw [calculateTotalWaste_eq_sum, calculateTotalWaste_eq_sum, List.map_map]
  induction boards with
  | nil => simp
  | cons b bs ih =>
      rw [List.map_cons, List.map_cons, List.sum_cons, List.sum_cons]
      have h1 : (downgradeBoard ls kerf b).boardLength -
          calculateUsed kerf (downgradeBoard ls kerf b).cuts ≤
          b.boardLength - calculateUsed kerf b.cuts := by
        rw [downgradeBoard_cuts]
        have := downgradeBoard_length_le ls kerf b
        linarith
      have h2 := ih
      simp only [Function.comp] at h2 ⊢
      linarith

theorem postProcess_skip {ls : List ℚ} {kerf maxB : ℚ} :
    ∀ (ms : List Measurement) (boards : List Board),
      (∀ m ∈ ms, ¬(m.splitEvenly = true ∧ maxB < m.size)) →
      ms.foldl (reworkMeasurement ls kerf maxB) boards = boards := by
  intro ms
  induction ms with
  | nil => intro boards _; rfl
  | cons m ms ih =>
      intro boards h
      rw [List.foldl_cons, reworkMeasurement_skip (h m (List.mem_cons_self _ _))]
      exact ih boards (fun m' hm' => h m' (List.mem_cons_of_mem _ hm'))

theorem summary_totalWaste_eq (kerf : ℚ) (boards : List Board) :
    (calculateSummaryStats kerf boards).totalWaste = calculateTotalWaste kerf boards := rfl

/-- **C5** (amended): provided no measurement is both flagged `splitEvenly`
and strictly larger than the largest available stock length — so the
balanced-split rework leaves the winning solution untouched — the returned
`summary.totalWaste` is at most the total waste of each single-length
strategy the selector evaluates.  (As literally stated the claim is false:
the rework runs after strategy selection and can increase waste, see the
counterexample.) -/
theorem C5_amended_waste_le_singletons (config : BaseboardConfig)
    (hne : config.availableLengths ≠ [])
    (hnosplit : ∀ m ∈ config.measurements, m.splitEvenly = true →
      ∀ maxB, (sortAsc config.availableLengths).getLast? = some maxB →
        m.size ≤ maxB) :
    ∀ l ∈ config.availableLengths,
      (optimizeBaseboards config).1.summary.totalWaste ≤
        calculateTotalWaste (config.kerf.getD (1 / 8))
          (tryPackingStrategy config.measurements (config.kerf.getD (1 / 8)) [l]) := by
  intro l hl
  set kerf := config.kerf.getD (1 / 8) with hkdef
  have hlen : ¬config.availableLengths.length = 0 :=
    fun h => hne (List.length_eq_zero.mp h)
  unfold optimizeBaseboards
  rw [if_neg hlen]
  simp only [optimizeCore, summary_totalWaste_eq]
  have hskip : postProcessSplits config.measurements (sortAsc config.availableLengths)
      kerf (runStrategies config.measurements kerf (sortAsc config.availableLengths)).bestBoards =
      (runStrategies config.measurements kerf (sortAsc config.availableLengths)).bestBoards := by
    unfold postProcessSplits
    rcases hlast : (sortAsc config.availableLengths).getLast? with _ | maxB
    · rfl
    · refine postProcess_skip _ _ ?_
      intro m hm ⟨hsplit, hover⟩
      exact absurd (hnosplit m hm hsplit maxB hlast) (not_le.mpr hover)
  rw [hskip]
  refine le_trans (totalWaste_downgrade_le _ _ _) ?_
  have hcand : [l] ∈ strategyCandidates (sortAsc config.availableLengths) := by
    unfold strategyCandidates
    refine List.mem_append.mpr (Or.inl (List.mem_append.mpr (Or.inl ?_)))
    exact List.mem_map.mpr ⟨l, sortAsc_mem.mpr hl, rfl⟩
  have hnemap : ((strategyCandidates (sortAsc config.availableLengths)).map
      (tryPackingStrategy config.measurements kerf)) ≠ [] := by
    intro hmapnil
    rw [List.map_eq_nil] at hmapnil
    rw [hmapnil] at hcand
    simp at hcand
  have hsome := selfold_some kerf _ hnemap
  rw [← runStrategies_eq_map] at hsome
  obtain ⟨_, hmin⟩ := selfold_min
    ((strategyCandidates (sortAsc config.availableLengths)).map
      (tryPackingStrategy config.measurements kerf))
    { bestBoards := [], minWaste := none }
    (by rw [← runStrategies_eq_map]; exact hsome)
  have hle := hmin (tryPackingStrategy config.measurements kerf [l])
    (List.mem_map.mpr ⟨[l], hcand, rfl⟩)
  exact hle

/-- Witness for C5 (amended) at the scenario-A configuration and stock
length 96. -/
theorem C5_amended_waste_le_singletons_witness :
    (optimizeBaseboards { measurements := [{ id := "w1", size := 50 }], availableLengths := [96] }).1.summary.totalWaste ≤
      calculateTotalWaste
        ((({ measurements := [{ id := "w1", size := 50 }], availableLengths := [96] } : BaseboardConfig)).kerf.getD (1 / 8))
        (tryPackingStrategy [{ id := "w1", size := 50 }]
          ((({ measurements := [{ id := "w1", size := 50 }], availableLengths := [96] } : BaseboardConfig)).kerf.getD (1 / 8)) [96]) :=
  C5_amended_waste_le_singletons
    { measurements := [{ id := "w1", size := 50 }], availableLengths := [96] }
    (by simp)
    (by intro m hm hsplit maxB hlast
        rw [List.mem_singleton] at hm
        subst hm
        exact absurd hsplit (by simp))
    96 (List.mem_singleton.mpr rfl)

/-! ### C8: the candidate enumeration -/

theorem pairsOf_iff {xs : List ℚ} {c : List ℚ} :
    c ∈ pairsOf xs ↔
      ∃ i j a b, i < j ∧ xs.get? i = some a ∧ xs.get? j = some b ∧ c = [a, b] := by
  induction xs with
  | nil =>
      simp only [pairsOf, List.not_mem_nil, false_iff]
      rintro ⟨i, j, a, b, _, hi, _, _⟩
      simp at hi
  | cons x xs ih =>
      rw [pairsOf, List.mem_append]
      constructor
      · rintro (h | h)
        · obtain ⟨y, hy, hc⟩ := List.mem_map.mp h
          obtain ⟨n, hn⟩ := List.mem_iff_get?.mp hy
          exact ⟨0, n + 1, x, y, Nat.succ_pos n, rfl, by simpa using hn, hc.symm⟩
        · obtain ⟨i, j, a, b, hij, hi, hj, hc⟩ := ih.mp h
          exact ⟨i + 1, j + 1, a, b, Nat.succ_lt_succ hij, by simpa using hi,
            by simpa using hj, hc⟩
      · rintro ⟨i, j, a, b, hij, hi, hj, hc⟩
        match i, j, hij with
        | 0, j + 1, _ =>
            rw [List.get?_cons_zero, Option.some_inj] at hi
            rw [List.get?_cons_succ] at hj
            subst hi
            exact Or.inl (List.mem_map.mpr ⟨b, List.mem_iff_get?.mpr ⟨j, hj⟩, hc.symm⟩)
        | i + 1, j + 1, hij =>
            rw [List.get?_cons_succ] at hi hj
            exact Or.inr (ih.mpr ⟨i, j, a, b, Nat.lt_of_succ_lt_succ hij, hi, hj, hc⟩)

/-- **C8** (amended): a candidate list is evaluated exactly when it is a
singleton `[l]` for some entry `l` of the sorted `availableLengths` list
(duplicates giving duplicate candidates), the full sorted list itself, or
an `i < j` pair of entries of the sorted list — the pairs being present
exactly when the number of entries, duplicates included, is at most 4.
(The claim as stated — one singleton per distinct length, pairs of distinct
lengths, threshold on the distinct count — is false when `availableLengths`
contains duplicates, see the counterexample.) -/
theorem C8_amended_candidate_enumeration (sortedLengths : List ℚ) (cand : List ℚ) :
    cand ∈ strategyCandidates sortedLengths ↔
      ((∃ l ∈ sortedLengths, cand = [l]) ∨ cand = sortedLengths ∨
        (sortedLengths.length ≤ 4 ∧
          ∃ i j a b, i < j ∧ sortedLengths.get? i = some a ∧
            sortedLengths.get? j = some b ∧ cand = [a, b])) := by
  unfold strategyCandidates
  rw [List.mem_append, List.mem_append]
  constructor
  · rintro ((h | h) | h)
    · obtain ⟨l, hl, hc⟩ := List.mem_map.mp h
      exact Or.inl ⟨l, hl, hc.symm⟩
    · rw [List.mem_singleton] at h
      exact Or.inr (Or.inl h)
    · by_cases h4 : sortedLengths.length ≤ 4
      · rw [if_pos h4] at h
        exact Or.inr (Or.inr ⟨h4, pairsOf_iff.mp h⟩)
      · rw [if_neg h4] at h
        simp at h
  · rintro (⟨l, hl, hc⟩ | h | ⟨h4, hpair⟩)
    · exact Or.inl (Or.inl (List.mem_map.mpr ⟨l, hl, hc.symm⟩))
    · exact Or.inl (Or.inr (List.mem_singleton.mpr h))
    · rw [if_pos h4]
      exact Or.inr (pairsOf_iff.mpr hpair)

/-- Witness for C8 (amended): the singleton `[2]` is an evaluated candidate
for the sorted stock list `[2, 5]`. -/
theorem C8_amended_candidate_enumeration_witness :
    [(2 : ℚ)] ∈ strategyCandidates [(2 : ℚ), 5] :=
  (C8_amended_candidate_enumeration [(2 : ℚ), 5] [(2 : ℚ)]).mpr
    (Or.inl ⟨2, List.mem_cons_self _ _, rfl⟩)

/-- Counterexample to C8 as stated: `availableLengths = [1, 1, 2, 2, 3]`
has only three distinct values (so the claim demands the pair candidates),
yet neither `[2, 3]` nor `[3, 2]` is evaluated — the code's threshold
counts entries (five here), not distinct lengths. -/
theorem C8_counterexample_duplicates :
    (∀ x ∈ ([1, 1, 2, 2, 3] : List ℚ), x = 1 ∨ x = 2 ∨ x = 3) ∧
    [(2 : ℚ), 3] ∉ strategyCandidates (sortAsc [1, 1, 2, 2, 3]) ∧
    [(3 : ℚ), 2] ∉ strategyCandidates (sortAsc [1, 1, 2, 2, 3]) := by
  refine ⟨?_, ?_, ?_⟩
  · intro x hx
    simp only [List.mem_cons, List.not_mem_nil, or_false] at hx
    tauto
  · norm_num [strategyCandidates, sortAsc, List.insertionSort, List.orderedInsert, pairsOf]
  · norm_num [strategyCandidates, sortAsc, List.insertionSort, List.orderedInsert, pairsOf]

set_option maxRecDepth 400000 in
set_option maxHeartbeats 2000000 in
/-- Counterexample to C5 as stated: for the measurements `a = 230`
(flagged `splitEvenly`) and `b = 30` with the single stock length 100, the
returned `summary.totalWaste` is 140, strictly more than the waste 39.875
of the singleton strategy `[100]` the selector evaluated: the balanced
split rework runs after strategy selection and here adds a board. -/
theorem C5_counterexample_rework_increases_waste :
    ¬((optimizeBaseboards { measurements := [{ id := "a", size := 230, splitEvenly := true }, { id := "b", size := 30 }], availableLengths := [100] }).1.summary.totalWaste ≤
      calculateTotalWaste (1 / 8)
        (tryPackingStrategy [{ id := "a", size := 230, splitEvenly := true }, { id := "b", size := 30 }] (1 / 8) [100])) := by
  have hc1 : ⌈(23 : ℚ) / 10⌉ = 3 := by rw [Int.ceil_eq_iff] <;> norm_num
  have hf1 : ⌊(7363 : ℚ) / 6⌋ = 1227 := by rw [Int.floor_eq_iff] <;> norm_num
  norm_num [optimizeBaseboards, optimizeCore, runStrategies, tryPackingStrategy, sortAsc,
    sortBySizeDesc, List.insertionSort, List.orderedInsert, selStep, calculateTotalWaste,
    calculateUsed, placeMeasurement, insertSplit, bestFitIndex, bestFitStep,
    findBestNewBoard, handleOversized, handleOversizedGo, oversizeFuel, pairsOf,
    postProcessSplits, reworkMeasurement, calculateSummaryStats, downgradeBoard,
    modifyAt, pushCut, canFit, List.find?, mapWithIndex, calculateBalancedSplits,
    jsRound, List.replicate, List.set, hc1, hf1,
    show ((3:ℤ)).toNat = 3 from rfl, List.cons_ne_nil,
    show (decide (("b" : String) = "a")) = false from rfl,
    show (decide (("a" : String) = "a")) = true from rfl,
    show (decide (("a" : String) = "b")) = false from rfl,
    show (decide (("b" : String) = "b")) = true from rfl]

set_option maxRecDepth 400000 in
set_option maxHeartbeats 2000000 in
/-- **C1** (failing run): the measurement `a = 97/16 = 6.0625` flagged
`splitEvenly` with the single stock length `97/32 = 3.03125` gets balanced
pieces `[49/16, 3]`; the first piece, rounded up to the sixteenth, exceeds
the stock length and is silently dropped, so the cuts carrying the
identifier sum to `3`, not to the requested `97/16`. -/
theorem C1_coverage_failure :
    (((optimizeBaseboards { measurements := [{ id := "a", size := 97 / 16, splitEvenly := true }], availableLengths := [97 / 32] }).1.boards.map
        (fun b => ((b.cuts.filter (fun c => c.id = "a")).map Cut.size).sum)).sum = 3) ∧
    (3 : ℚ) ≠ 97 / 16 := by
  constructor
  · norm_num [optimizeBaseboards, optimizeCore, runStrategies, tryPackingStrategy, sortAsc,
      sortBySizeDesc, List.insertionSort, List.orderedInsert, selStep, calculateTotalWaste,
      calculateUsed, placeMeasurement, insertSplit, bestFitIndex, bestFitStep,
      findBestNewBoard, handleOversized, handleOversizedGo, oversizeFuel, pairsOf,
      postProcessSplits, reworkMeasurement, calculateSummaryStats, downgradeBoard,
      modifyAt, pushCut, canFit, List.find?, mapWithIndex, calculateBalancedSplits,
      jsRound, List.replicate, List.set, List.cons_ne_nil,
      show ((2:ℤ)).toNat = 2 from rfl,
      show (decide (("a" : String) = "a")) = true from rfl]
  · norm_num

end Baseboard
